import Mathlib

/-!
Verification of the TubeMQ Go client's frame codec (`codec` package,
`TubeMQDecoder.Decode`) and partition/rebalance cache (`remote` package,
`RmtDataCache`) against their natural-language specification.

The Go code is shallowly embedded: byte streams become `List Nat`
(one element per byte), Go maps become association lists, `nil` pointer
map values become `Option`, and a Go `panic` (nil-pointer dereference)
is modelled by the `OpResult.panicked` constructor carrying the state at
the moment of the panic.
-/

namespace TubeMQ

/-! ## Association-list maps (Go `map[K]V`) and string sets (Go `map[string]bool`) -/

/-- Go map lookup `m[k]` returning `none` when the key is absent. -/
def alookup {κ α : Type} [DecidableEq κ] (k : κ) : List (κ × α) → Option α
  | [] => none
  | (k', v) :: rest => if k' = k then some v else alookup k rest

/-- Go map assignment `m[k] = v` (replace in place, or append when absent). -/
def aput {κ α : Type} [DecidableEq κ] (k : κ) (v : α) : List (κ × α) → List (κ × α)
  | [] => [(k, v)]
  | (k', v') :: rest => if k' = k then (k, v) :: rest else (k', v') :: aput k v rest

/-- Go map deletion `delete(m, k)`. -/
def aerase {κ α : Type} [DecidableEq κ] (k : κ) : List (κ × α) → List (κ × α)
  | [] => []
  | (k', v') :: rest => if k' = k then aerase k rest else (k', v') :: aerase k rest

/-- Set insertion for a Go `map[string]bool` used as a set. -/
def sinsert (k : String) (l : List String) : List String :=
  if k ∈ l then l else l ++ [k]

/-- Set removal for a Go `map[string]bool` used as a set. -/
def serase (k : String) (l : List String) : List String :=
  l.filter (fun x => x ≠ k)

/-! ## Frame codec (`codec` package)

The decoder's reusable scratch buffer (`t.msg`, with its grow-and-copy
policy) is memory management with no effect on the decoded value, so the
embedding reads directly from the remaining stream and accumulates the
body; every read, length check and token check of the source is kept. -/

/-- `io.ReadFull(reader, buf)` with `len(buf) = n` against a finite stream:
returns the `n` bytes read and the rest of the stream, or fails when the
stream ends first (`io.EOF` / `io.ErrUnexpectedEOF`). -/
def readFull (n : Nat) (s : List Nat) : Option (List Nat × List Nat) :=
  if n ≤ s.length then some (s.take n, s.drop n) else none

/-- `binary.BigEndian.Uint32` generalised to any byte list (big-endian fold). -/
def beU32 (bs : List Nat) : Nat :=
  bs.foldl (fun acc b => acc * 256 + b) 0

/-- The fixed magic token `RPCProtocolBeginToken = 0xFF7FF4FE`. -/
def RPCProtocolBeginToken : Nat := 0xFF7FF4FE

/-- `TubeMQResponse`: serial number plus concatenated body. -/
structure TubeMQResponse where
  serialNo : Nat
  responseBuf : List Nat
deriving DecidableEq

/-- The chunk-reading loop of `TubeMQDecoder.Decode` (`for i := 0; i < listSize; i++`):
reads a 4-byte chunk length then that many body bytes, accumulating the body. -/
def decodeChunkList : Nat → List Nat → List Nat → Except String (List Nat × List Nat)
  | 0, body, s => .ok (body, s)
  | n + 1, body, s =>
    match readFull 4 s with
    | none => .error "framer: read invalid size"
    | some (sizeBytes, s1) =>
      match readFull (beU32 sizeBytes) s1 with
      | none => .error "framer: read invalid data"
      | some (chunk, s2) => decodeChunkList n (body ++ chunk) s2

/-- `TubeMQDecoder.Decode`: read the 8-byte frame header (4-byte token +
4-byte serial number), check the token, read the 4-byte chunk count, then
the chunks; the response body is the in-order concatenation of the chunks. -/
def Decode (stream : List Nat) : Except String TubeMQResponse :=
  match readFull 8 stream with
  | none => .error "framer: read frame header num invalid"
  | some (frameHead, s1) =>
    if beU32 (frameHead.take 4) ≠ RPCProtocolBeginToken then
      .error "framer: read framer rpc protocol begin token not match"
    else
      match readFull 4 s1 with
      | none => .error "framer: read invalid list size num"
      | some (listSizeBytes, s2) =>
        match decodeChunkList (beU32 listSizeBytes) [] s2 with
        | .error e => .error e
        | .ok (body, _) => .ok ⟨beU32 (frameHead.drop 4), body⟩

/-! ### Well-formed frames (the wire format of the spec, for round-trip claims) -/

/-- Big-endian 4-byte encoding of a 32-bit value. -/
def beBytes4 (n : Nat) : List Nat :=
  [n / 16777216 % 256, n / 65536 % 256, n / 256 % 256, n % 256]

/-- One encoded chunk: 4-byte length followed by the raw bytes. -/
def encodeChunk (c : List Nat) : List Nat := beBytes4 c.length ++ c

/-- A well-formed frame: token, serial number, chunk count, then the chunks. -/
def encodeFrame (serial : Nat) (chunks : List (List Nat)) : List Nat :=
  beBytes4 RPCProtocolBeginToken ++ beBytes4 serial ++ beBytes4 chunks.length ++
    (chunks.map encodeChunk).flatten

/-! ## Partition & rebalance cache (`remote` package, `RmtDataCache`)

Value types from the `metadata` package (not part of the verified sources;
only their trivial getters/setters are used). Modelled from the spec:
- `Partition` is (topic, partition key, owning broker) plus a mutable
  `lastConsumed` flag; `Node` (broker identity) is an opaque comparable
  identity used only as a grouping key, modelled as `Nat` (one value per
  distinct `*metadata.Node` pointer);
- `SubscribeInfo` binds a Partition to a (consumerID, group) pair;
- `ConsumerEvent` is an opaque rebalance instruction (the cache never
  interprets its payload), modelled as an opaque identifier;
- the getters are plain field accessors on a Go pointer receiver, so
  calling one on a `nil` pointer dereferences nil and panics. -/

structure Partition where
  topic : String
  key : String
  broker : Nat
  lastConsumed : Bool
deriving DecidableEq

structure SubscribeInfo where
  partition : Partition
  consumerID : String
  group : String
deriving DecidableEq

structure ConsumerEvent where
  rebalanceID : Nat
deriving DecidableEq

/-- The state of `RmtDataCache`. Go map values of pointer type are nilable,
so `partitions` stores `Option Partition` (`none` = a stored `nil`
`*metadata.Partition`); `usedPartitions` maps a key to its lease-start
timestamp in milliseconds; `partitionTimeouts` keeps the keys with a
pending expiry timer (the timer object itself is real-time machinery whose
only state effect here is its presence); `topicPartitions` and
`brokerPartitions` are the secondary indices (buckets are key sets);
`partitionRegBooked` is the registration ledger (`map[string]bool`).
The set-once flow-control scalars (`underGroupCtrl`, `defFlowCtrlID`,
`groupFlowCtrlID`, `qryPriorityID`) are read and written by no modelled
operation and are omitted. -/
structure RmtDataCache where
  consumerID : String
  groupName : String
  partitionSubInfo : List (String × SubscribeInfo)
  rebalanceResults : List ConsumerEvent
  brokerPartitions : List (Nat × List String)
  partitions : List (String × Option Partition)
  usedPartitions : List (String × Int)
  indexPartitions : List String
  partitionTimeouts : List String
  topicPartitions : List (String × List String)
  partitionRegBooked : List (String × Bool)
deriving DecidableEq

/-- `NewRmtDataCache()`: every map starts empty. -/
def NewRmtDataCache : RmtDataCache :=
  { consumerID := "", groupName := "",
    partitionSubInfo := [], rebalanceResults := [], brokerPartitions := [],
    partitions := [], usedPartitions := [], indexPartitions := [],
    partitionTimeouts := [], topicPartitions := [], partitionRegBooked := [] }

/-- The result of a cache operation: normal completion, or a Go `panic`
(nil-pointer dereference) carrying the state at the moment of the panic
(the mutations already performed remain visible). -/
inductive OpResult (α : Type) where
  | ok : α → OpResult α
  | panicked : α → OpResult α
deriving DecidableEq

/-- The carried value of either outcome. -/
def OpResult.state {α : Type} : OpResult α → α
  | .ok s => s
  | .panicked s => s

/-- Whether the operation panicked. -/
def OpResult.isPanicked {α : Type} : OpResult α → Bool
  | .ok _ => false
  | .panicked _ => true

namespace RmtDataCache

/-- `OfferEvent`: append to the FIFO `rebalanceResults`. -/
def OfferEvent (r : RmtDataCache) (event : ConsumerEvent) : RmtDataCache :=
  { r with rebalanceResults := r.rebalanceResults ++ [event] }

/-- `TakeEvent`: return `nil` on an empty queue, else pop the head. -/
def TakeEvent (r : RmtDataCache) : Option ConsumerEvent × RmtDataCache :=
  match r.rebalanceResults with
  | [] => (none, r)
  | event :: rest => (some event, { r with rebalanceResults := rest })

/-- `PollEventResult`: pop the head when the queue is nonempty, else `nil`. -/
def PollEventResult (r : RmtDataCache) : Option ConsumerEvent × RmtDataCache :=
  match r.rebalanceResults with
  | event :: rest => (some event, { r with rebalanceResults := rest })
  | [] => (none, r)

/-- `ClearEvent`: `r.rebalanceResults = r.rebalanceResults[:0]`. -/
def ClearEvent (r : RmtDataCache) : RmtDataCache :=
  { r with rebalanceResults := [] }

/-- `SetConsumerInfo`. -/
def SetConsumerInfo (r : RmtDataCache) (consumerID group : String) : RmtDataCache :=
  { r with consumerID := consumerID, groupName := group }

/-- `IsFirstRegister`: book the key on first sight, then return the booked
value (a missing `map[string]bool` entry reads as `false`). -/
def IsFirstRegister (r : RmtDataCache) (partitionKey : String) : Bool × RmtDataCache :=
  let booked :=
    match alookup partitionKey r.partitionRegBooked with
    | none => aput partitionKey true r.partitionRegBooked
    | some _ => r.partitionRegBooked
  ((alookup partitionKey booked).getD false, { r with partitionRegBooked := booked })

/-- `resetIdlePartition`: drop the lease, stop and drop any pending expiry
timer, drop the key from the idle pool; when `reuse` is set and the key is
still present in `partitions` (even with a `nil` value), re-add it to the
idle pool. -/
def resetIdlePartition (r : RmtDataCache) (partitionKey : String) (reuse : Bool) : RmtDataCache :=
  let r1 := { r with usedPartitions := aerase partitionKey r.usedPartitions,
                     partitionTimeouts := serase partitionKey r.partitionTimeouts,
                     indexPartitions := serase partitionKey r.indexPartitions }
  if reuse then
    if (alookup partitionKey r1.partitions).isSome then
      { r1 with indexPartitions := sinsert partitionKey r1.indexPartitions }
    else r1
  else r1

/-- `removeMetaInfo`: when the key is present, prune it from its topic and
broker buckets (dropping a bucket that becomes empty; the broker bucket is
pruned at `partition.GetPartitionKey()`, the topic bucket at the argument
key), then delete it from `partitions` and `partitionSubInfo`. A stored
`nil` partition panics at `partition.GetTopic()` before any mutation. -/
def removeMetaInfo (r : RmtDataCache) (partitionKey : String) : OpResult RmtDataCache :=
  match alookup partitionKey r.partitions with
  | none => .ok r
  | some none => .panicked r
  | some (some partition) =>
    let tp :=
      match alookup partition.topic r.topicPartitions with
      | some bucket =>
        let bucket1 := serase partitionKey bucket
        if bucket1 = [] then aerase partition.topic r.topicPartitions
        else aput partition.topic bucket1 r.topicPartitions
      | none => r.topicPartitions
    let bp :=
      match alookup partition.broker r.brokerPartitions with
      | some bucket =>
        let bucket1 := serase partition.key bucket
        if bucket1 = [] then aerase partition.broker r.brokerPartitions
        else aput partition.broker bucket1 r.brokerPartitions
      | none => r.brokerPartitions
    .ok { r with topicPartitions := tp, brokerPartitions := bp,
                 partitions := aerase partitionKey r.partitions,
                 partitionSubInfo := aerase partitionKey r.partitionSubInfo }

/-- `AddNewPartition`. The source constructs a `SubscribeInfo` bound to the
current consumer/group, but on a fresh key the statement
`if partition, ok := r.partitions[partitionKey]; !ok` shadows `partition`
with the zero value `nil` of the failed lookup, stores that `nil` under the
key (`r.partitions[partitionKey] = partition`), and then dereferences it
(`partition.GetPartitionKey()`), so the call panics with only the `nil`
insertion performed; the constructed `SubscribeInfo` is never stored. On an
already-present key the insert block is skipped and the partition is
re-marked idle-and-reusable. -/
def AddNewPartition (r : RmtDataCache) (newPartition : Partition) : OpResult RmtDataCache :=
  let partitionKey := newPartition.key
  match alookup partitionKey r.partitions with
  | none => .panicked { r with partitions := aput partitionKey none r.partitions }
  | some _ => .ok (resetIdlePartition r partitionKey true)

/-- One output grouping per broker (`map[*metadata.Node][]*metadata.Partition`). -/
abbrev BrokerMap := List (Nat × List Partition)

/-- The broker-grouping block of `RemoveAndGetPartition`:
`if _, ok := partitions[broker]; !ok` create a one-element slice, else
append to the existing slice. -/
def appendToBrokerMap (out : BrokerMap) (b : Nat) (p : Partition) : BrokerMap :=
  match alookup b out with
  | none => out ++ [(b, [p])]
  | some l => aput b (l ++ [p]) out

/-- The loop body of `RemoveAndGetPartition` over the revocation list: when
the key is present, set `lastConsumed` (`false` on rollback, `true`
otherwise) if the key is leased, append the partition to its broker's
output group, purge its metadata, and in every case clear its lease/idle
state. A stored `nil` partition panics at `SetLastConsumed` before any
mutation of this iteration. -/
def removeAndGetLoop (r : RmtDataCache) (subs : List SubscribeInfo)
    (processingRollback : Bool) (out : BrokerMap) : OpResult (RmtDataCache × BrokerMap) :=
  match subs with
  | [] => .ok (r, out)
  | sub :: rest =>
    let partitionKey := sub.partition.key
    match alookup partitionKey r.partitions with
    | some none => .panicked (r, out)
    | some (some partition) =>
      let partition1 :=
        if (alookup partitionKey r.usedPartitions).isSome then
          { partition with lastConsumed := !processingRollback }
        else partition
      let r1 := { r with partitions := aput partitionKey (some partition1) r.partitions }
      let out1 := appendToBrokerMap out partition1.broker partition1
      match removeMetaInfo r1 partitionKey with
      | .panicked r2 => .panicked (r2, out1)
      | .ok r2 => removeAndGetLoop (resetIdlePartition r2 partitionKey false) rest
                    processingRollback out1
    | none => removeAndGetLoop (resetIdlePartition r partitionKey false) rest
                processingRollback out

/-- `RemoveAndGetPartition`: early return on an empty revocation list, else
run the loop against the caller-supplied broker-grouped output. -/
def RemoveAndGetPartition (r : RmtDataCache) (subscribeInfos : List SubscribeInfo)
    (processingRollback : Bool) (out : BrokerMap) : OpResult (RmtDataCache × BrokerMap) :=
  if subscribeInfos = [] then .ok (r, out)
  else removeAndGetLoop r subscribeInfos processingRollback out

/-- The loop of `RemovePartition`: clear lease/idle state (no reuse), then
purge metadata, for each key in order. -/
def removePartitionLoop (r : RmtDataCache) (partitionKeys : List String) : OpResult RmtDataCache :=
  match partitionKeys with
  | [] => .ok r
  | k :: rest =>
    match removeMetaInfo (resetIdlePartition r k false) k with
    | .panicked r2 => .panicked r2
    | .ok r2 => removePartitionLoop r2 rest

/-- `RemovePartition`. -/
def RemovePartition (r : RmtDataCache) (partitionKeys : List String) : OpResult RmtDataCache :=
  removePartitionLoop r partitionKeys

/-- The scan loop of `HandleExpiredPartitions` over `usedPartitions`: a
lease older than the wait is marked expired and, when its partition is
present, the partition's `lastConsumed` is set to `false` (a stored `nil`
partition panics at `SetLastConsumed`). Returns the scanned state and the
expired key set. -/
def expireScan (r : RmtDataCache) (entries : List (String × Int))
    (curr waitMs : Int) : OpResult (RmtDataCache × List String) :=
  match entries with
  | [] => .ok (r, [])
  | (partitionKey, t) :: rest =>
    if curr - t > waitMs then
      match alookup partitionKey r.partitions with
      | some none => .panicked (r, [])
      | some (some p) =>
        let p1 : Partition := { p with lastConsumed := false }
        let r1 := { r with partitions := aput partitionKey (some p1) r.partitions }
        match expireScan r1 rest curr waitMs with
        | .ok (r2, ex) => .ok (r2, partitionKey :: ex)
        | .panicked res => .panicked res
      | none =>
        match expireScan r rest curr waitMs with
        | .ok (r2, ex) => .ok (r2, partitionKey :: ex)
        | .panicked res => .panicked res
    else expireScan r rest curr waitMs

/-- `HandleExpiredPartitions`: `curr` is `time.Now()` in milliseconds and
`waitMs` is `wait.Milliseconds()`; scan all leases, then reset every
expired key to idle-and-reusable. -/
def HandleExpiredPartitions (r : RmtDataCache) (curr waitMs : Int) : OpResult RmtDataCache :=
  if r.usedPartitions = [] then .ok r
  else
    match expireScan r r.usedPartitions curr waitMs with
    | .panicked (r1, _) => .panicked r1
    | .ok (r1, expired) =>
      .ok (expired.foldl (fun s k => resetIdlePartition s k true) r1)

end RmtDataCache

/-! ## Derived forms used by the claims -/

namespace RmtDataCache

/-- Offer a whole list of events in order. -/
def offerAll (r : RmtDataCache) (events : List ConsumerEvent) : RmtDataCache :=
  events.foldl OfferEvent r

/-- Take `n` events in order, collecting the returned results. -/
def takeN (r : RmtDataCache) : Nat → List (Option ConsumerEvent) × RmtDataCache
  | 0 => ([], r)
  | n + 1 =>
    let first := TakeEvent r
    let rest := takeN first.snd n
    (first.fst :: rest.fst, rest.snd)

/-- The results of `n` successive `IsFirstRegister` calls for one key. -/
def isFirstRegisterRuns (r : RmtDataCache) (k : String) : Nat → List Bool
  | 0 => []
  | n + 1 =>
    let c := IsFirstRegister r k
    c.fst :: isFirstRegisterRuns c.snd k n

end RmtDataCache

/-- Whether partition `p` appears in broker `b`'s group of the output map. -/
def grouped (out : RmtDataCache.BrokerMap) (b : Nat) (p : Partition) : Bool :=
  match alookup b out with
  | some l => decide (p ∈ l)
  | none => false

/-- One metadata-mutating cache operation (the operations of claim C8). -/
inductive CacheOp where
  | add : Partition → CacheOp
  | removeAndGet : List SubscribeInfo → Bool → CacheOp
  | remove : List String → CacheOp
deriving DecidableEq

/-- The state after one operation; a panicking operation leaves the state
it had mutated up to the panic (the deferred mutex unlock releases the
lock, the cache object survives). -/
def runOp (r : RmtDataCache) : CacheOp → RmtDataCache
  | .add p => (r.AddNewPartition p).state
  | .removeAndGet subs rb => (r.RemoveAndGetPartition subs rb []).state.fst
  | .remove ks => (r.RemovePartition ks).state

/-- Run a sequence of operations from a starting state. -/
def runOps (r : RmtDataCache) (ops : List CacheOp) : RmtDataCache :=
  ops.foldl runOp r

/-- The metadata keyset/index invariant of claim C8: `partitions` and
`partitionSubInfo` share their keyset, every key in a secondary-index
bucket is present in `partitions`, and no empty bucket persists. -/
def MetaInv (r : RmtDataCache) : Prop :=
  (∀ k, (alookup k r.partitions).isSome = (alookup k r.partitionSubInfo).isSome) ∧
  (∀ e ∈ r.topicPartitions, e.2 ≠ [] ∧ ∀ k ∈ e.2, (alookup k r.partitions).isSome = true) ∧
  (∀ e ∈ r.brokerPartitions, e.2 ≠ [] ∧ ∀ k ∈ e.2, (alookup k r.partitions).isSome = true)

/-- The lease/idle exclusion invariant of claim C9: no key is at once
leased and idle, and a leased or idle key is present in `partitions`. -/
def UsedIndexInv (r : RmtDataCache) : Prop :=
  (∀ k, (alookup k r.usedPartitions).isSome = true → k ∉ r.indexPartitions) ∧
  (∀ k, (alookup k r.usedPartitions).isSome = true → (alookup k r.partitions).isSome = true) ∧
  (∀ k, k ∈ r.indexPartitions → (alookup k r.partitions).isSome = true)

/-- One step of the cache: any single method call, with any arguments;
a panicking call steps to the state at the panic. -/
inductive Step : RmtDataCache → RmtDataCache → Prop where
  | offerEvent (r : RmtDataCache) (e : ConsumerEvent) : Step r (r.OfferEvent e)
  | takeEvent (r : RmtDataCache) : Step r (r.TakeEvent).snd
  | pollEventResult (r : RmtDataCache) : Step r (r.PollEventResult).snd
  | clearEvent (r : RmtDataCache) : Step r r.ClearEvent
  | setConsumerInfo (r : RmtDataCache) (cid g : String) : Step r (r.SetConsumerInfo cid g)
  | isFirstRegister (r : RmtDataCache) (k : String) : Step r (r.IsFirstRegister k).snd
  | addNewPartition (r : RmtDataCache) (p : Partition) : Step r (r.AddNewPartition p).state
  | removeAndGetPartition (r : RmtDataCache) (subs : List SubscribeInfo) (rb : Bool)
      (out : RmtDataCache.BrokerMap) : Step r (r.RemoveAndGetPartition subs rb out).state.fst
  | removePartition (r : RmtDataCache) (ks : List String) : Step r (r.RemovePartition ks).state
  | handleExpiredPartitions (r : RmtDataCache) (curr waitMs : Int) :
      Step r (r.HandleExpiredPartitions curr waitMs).state

/-- States reachable from the fresh cache by cache operations. -/
def Reachable (r : RmtDataCache) : Prop :=
  Relation.ReflTransGen Step NewRmtDataCache r

/-! ## Association-map lemmas -/

theorem alookup_aput_self {κ α : Type} [DecidableEq κ] (k : κ) (v : α) (m : List (κ × α)) :
    alookup k (aput k v m) = some v := by
  induction m with
  | nil => simp [aput, alookup]
  | cons e rest ih =>
    by_cases h : e.1 = k <;> simp [aput, alookup, h, ih]

theorem alookup_aput_ne {κ α : Type} [DecidableEq κ] {k k' : κ} (v : α) (m : List (κ × α))
    (h : k' ≠ k) : alookup k' (aput k v m) = alookup k' m := by
  have hks : ¬ (k = k') := fun hh => h hh.symm
  induction m with
  | nil => simp [aput, alookup, hks]
  | cons e rest ih =>
    by_cases he : e.1 = k
    · simp [aput, alookup, he, hks]
    · simp only [aput, he, if_false, alookup]
      by_cases he' : e.1 = k' <;> simp [he', ih]

theorem alookup_aerase_self {κ α : Type} [DecidableEq κ] (k : κ) (m : List (κ × α)) :
    alookup k (aerase k m) = none := by
  induction m with
  | nil => simp [aerase, alookup]
  | cons e rest ih =>
    by_cases h : e.1 = k <;> simp [aerase, alookup, h, ih]

theorem alookup_aerase_ne {κ α : Type} [DecidableEq κ] {k k' : κ} (m : List (κ × α))
    (h : k' ≠ k) : alookup k' (aerase k m) = alookup k' m := by
  induction m with
  | nil => simp [aerase, alookup]
  | cons e rest ih =>
    have hks : ¬ (k = k') := fun hh => h hh.symm
    by_cases he : e.1 = k
    · simp [aerase, alookup, he, hks, ih]
    · simp only [aerase, he, if_false, alookup]
      by_cases he' : e.1 = k' <;> simp [he', ih]

theorem mem_serase {k k' : String} {l : List String} :
    k' ∈ serase k l ↔ k' ∈ l ∧ k' ≠ k := by
  simp [serase, List.mem_filter]

theorem mem_sinsert {k k' : String} {l : List String} :
    k' ∈ sinsert k l ↔ k' ∈ l ∨ k' = k := by
  by_cases h : k ∈ l
  · simp only [sinsert, if_pos h]
    constructor
    · exact fun hm => Or.inl hm
    · rintro (hm | rfl) <;> [exact hm; exact h]
  · simp [sinsert, if_neg h]

theorem mem_aput_values {κ α : Type} [DecidableEq κ] {k : κ} {v : α} {m : List (κ × α)}
    {e : κ × α} (he : e ∈ aput k v m) : e = (k, v) ∨ e ∈ m := by
  induction m with
  | nil => simpa [aput] using he
  | cons f rest ih =>
    by_cases hf : f.1 = k
    · rcases (by simpa [aput, hf] using he) with h | h
      · exact Or.inl h
      · exact Or.inr (List.mem_cons_of_mem _ h)
    · rcases (by simpa [aput, hf] using he) with h | h
      · exact Or.inr (by simp [h])
      · rcases ih h with h' | h'
        · exact Or.inl h'
        · exact Or.inr (List.mem_cons_of_mem _ h')

theorem mem_aerase_values {κ α : Type} [DecidableEq κ] {k : κ} {m : List (κ × α)}
    {e : κ × α} (he : e ∈ aerase k m) : e ∈ m := by
  induction m with
  | nil => simp [aerase] at he
  | cons f rest ih =>
    by_cases hf : f.1 = k
    · exact List.mem_cons_of_mem _ (ih (by simpa [aerase, hf] using he))
    · rcases (by simpa [aerase, hf] using he) with h | h
      · exact by simp [h]
      · exact List.mem_cons_of_mem _ (ih h)

/-! ## More association-map lemmas -/

theorem alookup_mem {κ α : Type} [DecidableEq κ] {k : κ} {v : α} {m : List (κ × α)}
    (h : alookup k m = some v) : (k, v) ∈ m := by
  induction m with
  | nil => simp [alookup] at h
  | cons e rest ih =>
    by_cases he : e.1 = k
    · have : v = e.2 := by simpa [alookup, he] using h.symm
      subst this
      simp [← he]
    · exact List.mem_cons_of_mem _ (ih (by simpa [alookup, he] using h))

theorem alookup_eq_of_mem_nodup {κ α : Type} [DecidableEq κ] {k : κ} {v : α}
    {m : List (κ × α)} (hnd : (m.map Prod.fst).Nodup) (h : (k, v) ∈ m) :
    alookup k m = some v := by
  induction m with
  | nil => simp at h
  | cons e rest ih =>
    rcases List.mem_cons.mp h with h | h
    · rw [← h]; simp [alookup]
    · have hk : k ∈ rest.map Prod.fst := List.mem_map.mpr ⟨(k, v), h, rfl⟩
      have he : e.1 ≠ k := fun hh => ((List.nodup_cons.mp hnd).1 (hh ▸ hk))
      simp only [alookup, he, if_false]
      exact ih (List.nodup_cons.mp hnd).2 h

theorem mem_filter_keys_nodup {k : κ} [DecidableEq κ] {β : Type} {T : β}
    {m : List (κ × β)} (P : κ × β → Bool) (hnd : (m.map Prod.fst).Nodup)
    (h : (k, T) ∈ m) : (k ∈ (m.filter P).map Prod.fst ↔ P (k, T) = true) := by
  induction m with
  | nil => simp at h
  | cons e rest ih =>
    have hnd' := List.nodup_cons.mp hnd
    rcases List.mem_cons.mp h with h | h
    · subst h
      by_cases hp : P (k, T) = true
      · rw [List.filter_cons, if_pos hp]
        simp [hp]
      · rw [List.filter_cons, if_neg hp]
        simp only [hp, Bool.false_eq_true, iff_false]
        intro hk
        obtain ⟨x, hx, hxk⟩ := List.mem_map.mp hk
        exact hnd'.1 (hxk ▸ List.mem_map.mpr ⟨x, (List.mem_filter.mp hx).1, rfl⟩)
    · have hk : k ∈ rest.map Prod.fst := List.mem_map.mpr ⟨(k, T), h, rfl⟩
      have he : ¬ (e.1 = k) := fun hh => (hnd'.1 (hh ▸ hk))
      have hstep : k ∈ List.map Prod.fst (List.filter P (e :: rest))
          ↔ k ∈ List.map Prod.fst (List.filter P rest) := by
        rw [List.filter_cons]
        by_cases hp : P e = true
        · rw [if_pos hp]
          simp only [List.map_cons, List.mem_cons]
          constructor
          · rintro (hh | hh)
            · exact absurd hh.symm he
            · exact hh
          · exact fun hh => Or.inr hh
        · rw [if_neg hp]
      rw [hstep]
      exact ih hnd'.2 h

/-! ## Event-queue lemmas -/

theorem offerAll_queue (events : List ConsumerEvent) :
    ∀ r : RmtDataCache, (r.offerAll events).rebalanceResults = r.rebalanceResults ++ events := by
  induction events with
  | nil => intro r; simp [RmtDataCache.offerAll]
  | cons e rest ih =>
    intro r
    have : r.offerAll (e :: rest) = (r.OfferEvent e).offerAll rest := rfl
    rw [this, ih]
    simp [RmtDataCache.OfferEvent]

theorem takeN_exact (events : List ConsumerEvent) :
    ∀ r : RmtDataCache, r.rebalanceResults = events →
      (r.takeN events.length).fst = events.map some := by
  induction events with
  | nil => intro r _; simp [RmtDataCache.takeN]
  | cons e rest ih =>
    intro r h
    have hTake : r.TakeEvent = (some e, { r with rebalanceResults := rest }) := by
      simp [RmtDataCache.TakeEvent, h]
    simp only [List.length_cons, RmtDataCache.takeN, hTake, List.map_cons]
    rw [ih { r with rebalanceResults := rest } rfl]

/-! ## Claim theorems: event queue -/

/-- C10: `TakeEvent` and `PollEventResult` are extensionally equal: on any
queue state both return the same result (head event, or `nil` when empty)
and leave the queue in the same resulting state. -/
theorem takeEvent_eq_pollEventResult (r : RmtDataCache) : r.TakeEvent = r.PollEventResult := by
  cases h : r.rebalanceResults <;>
    simp [RmtDataCache.TakeEvent, RmtDataCache.PollEventResult, h]

/-- C7: starting from an empty queue, offering N events in order and then
taking N times returns exactly those events in offer order; and after
`ClearEvent`, `TakeEvent` returns the empty-queue signal `nil` (and keeps
doing so) until a new event is offered, after which it returns that event. -/
theorem eventQueue_fifo (r : RmtDataCache) (h : r.rebalanceResults = [])
    (events : List ConsumerEvent) :
    (RmtDataCache.takeN (r.offerAll events) events.length).fst = events.map some ∧
    (∀ r' : RmtDataCache,
      (r'.ClearEvent.TakeEvent).fst = none ∧
      ((r'.ClearEvent.TakeEvent).snd.TakeEvent).fst = none ∧
      ∀ e : ConsumerEvent, ((r'.ClearEvent.OfferEvent e).TakeEvent).fst = some e) := by
  constructor
  · exact takeN_exact events (r.offerAll events) (by rw [offerAll_queue, h]; simp)
  · intro r'
    refine ⟨?_, ?_, ?_⟩
    · simp [RmtDataCache.ClearEvent, RmtDataCache.TakeEvent]
    · simp [RmtDataCache.ClearEvent, RmtDataCache.TakeEvent]
    · intro e
      simp [RmtDataCache.ClearEvent, RmtDataCache.OfferEvent, RmtDataCache.TakeEvent]

/-- Witness for C7 at a concrete two-event run from the fresh cache. -/
theorem eventQueue_fifo_witness :
    (RmtDataCache.takeN (NewRmtDataCache.offerAll [⟨1⟩, ⟨2⟩])
        ([⟨1⟩, ⟨2⟩] : List ConsumerEvent).length).fst =
      ([⟨1⟩, ⟨2⟩] : List ConsumerEvent).map some ∧
    (∀ r' : RmtDataCache,
      (r'.ClearEvent.TakeEvent).fst = none ∧
      ((r'.ClearEvent.TakeEvent).snd.TakeEvent).fst = none ∧
      ∀ e : ConsumerEvent, ((r'.ClearEvent.OfferEvent e).TakeEvent).fst = some e) :=
  eventQueue_fifo NewRmtDataCache rfl [⟨1⟩, ⟨2⟩]

/-! ## Claim theorems: registration ledger (`IsFirstRegister`) -/

theorem isFirstRegister_run_true (k : String) :
    ∀ n : Nat, ∀ r : RmtDataCache,
      alookup k r.partitionRegBooked = none ∨ alookup k r.partitionRegBooked = some true →
      r.isFirstRegisterRuns k n = List.replicate n true := by
  intro n
  induction n with
  | zero => intro r _; simp [RmtDataCache.isFirstRegisterRuns]
  | succ m ih =>
    intro r h
    have hbooked : alookup k (r.IsFirstRegister k).snd.partitionRegBooked = some true ∧
        (r.IsFirstRegister k).fst = true := by
      rcases h with h | h <;>
        simp [RmtDataCache.IsFirstRegister, h, alookup_aput_self]
    have : r.isFirstRegisterRuns k (m + 1) =
        (r.IsFirstRegister k).fst :: (r.IsFirstRegister k).snd.isFirstRegisterRuns k m := rfl
    rw [this, hbooked.2, ih _ (Or.inr hbooked.1), List.replicate_succ]

/-- C2 (as the code behaves): on a fresh cache, the first `IsFirstRegister(k)`
call returns `true` — not `false` — and every subsequent call also returns
`true`: the call books the key and then returns the booked value. -/
theorem isFirstRegister_always_true (k : String) (n : Nat) :
    NewRmtDataCache.isFirstRegisterRuns k n = List.replicate n true :=
  isFirstRegister_run_true k n NewRmtDataCache (Or.inl rfl)

/-- Counterexample to C2 as stated: on the fresh cache the very first
`IsFirstRegister("p1")` call does not return `false`. -/
theorem isFirstRegister_first_call_not_false :
    ¬ ((NewRmtDataCache.IsFirstRegister "p1").fst = false) := by decide

/-! ## Claim theorems: `AddNewPartition` slip (C1, C8) -/

/-- C1 (code bug, evaluated at the failing input): adding a fresh partition
with key `"p1"` to the empty cache panics (nil-pointer dereference), and the
state at the panic holds a `nil` — not the partition itself — under `"p1"`
in `partitions`, with no `SubscribeInfo`, no index-bucket entries, and the
key absent from the idle pool `indexPartitions`. -/
theorem addNewPartition_stores_nil_and_panics :
    (NewRmtDataCache.AddNewPartition ⟨"topicA", "p1", 1, false⟩).isPanicked = true ∧
    alookup "p1" (NewRmtDataCache.AddNewPartition ⟨"topicA", "p1", 1, false⟩).state.partitions
      = some none ∧
    (NewRmtDataCache.AddNewPartition ⟨"topicA", "p1", 1, false⟩).state.partitionSubInfo = [] ∧
    (NewRmtDataCache.AddNewPartition ⟨"topicA", "p1", 1, false⟩).state.topicPartitions = [] ∧
    (NewRmtDataCache.AddNewPartition ⟨"topicA", "p1", 1, false⟩).state.brokerPartitions = [] ∧
    ¬ ("p1" ∈ (NewRmtDataCache.AddNewPartition ⟨"topicA", "p1", 1, false⟩).state.indexPartitions)
    := by decide

/-- C8 (code bug, evaluated at the failing sequence): after the single
operation `AddNewPartition ⟨"topicA","p1",1,false⟩` on the empty cache, the
keysets of `partitions` and `partitionSubInfo` differ (`"p1"` is present
only in `partitions`), so the metadata invariant fails. -/
theorem addSequence_breaks_metaInv :
    ¬ MetaInv (runOps NewRmtDataCache [CacheOp.add ⟨"topicA", "p1", 1, false⟩]) :=
  fun h => absurd (h.1 "p1") (by decide)

/-! ## Frame-codec lemmas -/

theorem beBytes4_length (n : Nat) : (beBytes4 n).length = 4 := rfl

theorem beU32_beBytes4 (n : Nat) (h : n < 4294967296) : beU32 (beBytes4 n) = n := by
  simp only [beU32, beBytes4, List.foldl_cons, List.foldl_nil]
  omega

theorem readFull_append (xs ys : List Nat) (n : Nat) (h : xs.length = n) :
    readFull n (xs ++ ys) = some (xs, ys) := by
  subst h
  simp [readFull, List.take_left, List.drop_left]

theorem readFull_short (n : Nat) (s : List Nat) (h : s.length < n) :
    readFull n s = none := by
  simp only [readFull, if_neg (by omega : ¬ n ≤ s.length)]

theorem readFull_all (n : Nat) (s : List Nat) (h : n ≤ s.length) :
    readFull n s = some (s.take n, s.drop n) := by
  simp only [readFull, if_pos h]

/-- Splitting a list equation along a known left part: if `a ++ x = pre ++ suf`
and `pre` is at least as long as `a`, then `pre` starts with `a` and the rest
of `pre` continues into `x`. -/
theorem append_eq_append_split {α : Type} (a x pre suf : List α)
    (h : a ++ x = pre ++ suf) (hl : a.length ≤ pre.length) :
    pre = a ++ pre.drop a.length ∧ x = pre.drop a.length ++ suf := by
  have h2 : (a ++ x).take a.length = (pre ++ suf).take a.length := congrArg _ h
  rw [List.take_left, List.take_append_of_le_length hl] at h2
  have h1 : pre = a ++ pre.drop a.length := by
    conv_lhs => rw [← List.take_append_drop a.length pre]
    rw [← h2]
  refine ⟨h1, ?_⟩
  have h3 : a ++ x = a ++ (pre.drop a.length ++ suf) := by
    rw [← List.append_assoc, ← h1]; exact h
  exact List.append_cancel_left h3

theorem decodeChunkList_encode (chunks : List (List Nat)) :
    ∀ acc tail : List Nat, (∀ c ∈ chunks, c.length < 4294967296) →
      decodeChunkList chunks.length acc ((chunks.map encodeChunk).flatten ++ tail) =
        .ok (acc ++ chunks.flatten, tail) := by
  induction chunks with
  | nil => intro acc tail _; simp [decodeChunkList]
  | cons c rest ih =>
    intro acc tail hl
    have hc : c.length < 4294967296 := hl c (by simp)
    have hstream : (List.map encodeChunk (c :: rest)).flatten ++ tail
        = beBytes4 c.length ++ (c ++ ((List.map encodeChunk rest).flatten ++ tail)) := by
      simp [encodeChunk, List.append_assoc]
    rw [List.length_cons, hstream]
    have e1 := readFull_append (beBytes4 c.length)
      (c ++ ((List.map encodeChunk rest).flatten ++ tail)) 4 (beBytes4_length _)
    have e2 := readFull_append c ((List.map encodeChunk rest).flatten ++ tail) c.length rfl
    simp only [decodeChunkList, e1, beU32_beBytes4 _ hc, e2]
    rw [ih (acc ++ c) tail (fun c' hc' => hl c' (by simp [hc']))]
    simp [List.append_assoc]

theorem decodeChunkList_truncated (chunks : List (List Nat)) :
    ∀ pre suf acc : List Nat, (∀ c ∈ chunks, c.length < 4294967296) → suf ≠ [] →
      (chunks.map encodeChunk).flatten = pre ++ suf →
      ∃ e, decodeChunkList chunks.length acc pre = .error e := by
  induction chunks with
  | nil =>
    intro pre suf acc _ hsuf heq
    exact absurd (List.append_eq_nil.mp (by simpa using heq.symm)).2 hsuf
  | cons c rest ih =>
    intro pre suf acc hl hsuf heq
    have hc : c.length < 4294967296 := hl c (by simp)
    have heq' : beBytes4 c.length ++ (c ++ (List.map encodeChunk rest).flatten) = pre ++ suf := by
      simpa [encodeChunk, List.append_assoc] using heq
    rw [List.length_cons]
    by_cases h4 : pre.length < 4
    · exact ⟨"framer: read invalid size",
        by simp only [decodeChunkList, readFull_short 4 pre h4]⟩
    · obtain ⟨hpre, hrest⟩ := append_eq_append_split _ _ _ _ heq'
        (by simpa [beBytes4_length] using Nat.le_of_not_lt h4)
      rw [beBytes4_length] at hpre hrest
      generalize hgen : pre.drop 4 = t at hpre hrest
      have e1 : readFull 4 pre = some (beBytes4 c.length, t) := by
        rw [hpre]; exact readFull_append _ _ 4 (beBytes4_length _)
      by_cases hlen : t.length < c.length
      · exact ⟨"framer: read invalid data", by simp only [decodeChunkList, e1,
          beU32_beBytes4 _ hc, readFull_short c.length t hlen]⟩
      · obtain ⟨htp, htr⟩ := append_eq_append_split c ((List.map encodeChunk rest).flatten)
          t suf hrest (Nat.le_of_not_lt hlen)
        generalize hgen2 : t.drop c.length = u at htp htr
        have e2 : readFull c.length t = some (c, u) := by
          rw [htp]; exact readFull_append _ _ c.length rfl
        obtain ⟨e, he⟩ := ih u suf (acc ++ c)
          (fun c' hc' => hl c' (by simp [hc'])) hsuf htr
        exact ⟨e, by simp only [decodeChunkList, e1, beU32_beBytes4 _ hc, e2, he]⟩

/-! ## Claim theorems: frame codec -/

/-- C3: for every well-formed frame (token, 32-bit serial number, 32-bit
chunk count, then length-prefixed chunks), `Decode` returns the header's
serial number and the in-order concatenation of all chunk bodies. -/
theorem decode_wellFormedFrame (serial : Nat) (chunks : List (List Nat))
    (hs : serial < 4294967296) (hc : chunks.length < 4294967296)
    (hl : ∀ c ∈ chunks, c.length < 4294967296) :
    Decode (encodeFrame serial chunks) = .ok ⟨serial, chunks.flatten⟩ := by
  have hstream : encodeFrame serial chunks
      = (beBytes4 RPCProtocolBeginToken ++ beBytes4 serial)
        ++ (beBytes4 chunks.length ++ (chunks.map encodeChunk).flatten) := by
    simp [encodeFrame, List.append_assoc]
  have e1 := readFull_append (beBytes4 RPCProtocolBeginToken ++ beBytes4 serial)
    (beBytes4 chunks.length ++ (chunks.map encodeChunk).flatten) 8 rfl
  have e2 := readFull_append (beBytes4 chunks.length) ((chunks.map encodeChunk).flatten) 4
    (beBytes4_length _)
  have htok : (beBytes4 RPCProtocolBeginToken ++ beBytes4 serial).take 4
      = beBytes4 RPCProtocolBeginToken := rfl
  have hser : (beBytes4 RPCProtocolBeginToken ++ beBytes4 serial).drop 4
      = beBytes4 serial := rfl
  have e3 := decodeChunkList_encode chunks [] [] hl
  rw [List.append_nil] at e3
  simp only [Decode, hstream, e1, htok, beU32_beBytes4 RPCProtocolBeginToken (by decide),
    ne_eq, not_true_eq_false, if_false, e2, beU32_beBytes4 _ hc, e3, hser,
    beU32_beBytes4 serial hs, List.nil_append]

/-- Witness for C3 at the spec's concrete frame: token, serial 42, two
chunks "abc" and "de"; decoding yields serial 42 and body "abcde". -/
theorem decode_wellFormedFrame_witness :
    encodeFrame 42 [[97, 98, 99], [100, 101]]
      = [255, 127, 244, 254, 0, 0, 0, 42, 0, 0, 0, 2,
         0, 0, 0, 3, 97, 98, 99, 0, 0, 0, 2, 100, 101] ∧
    Decode (encodeFrame 42 [[97, 98, 99], [100, 101]])
      = .ok ⟨42, [97, 98, 99, 100, 101]⟩ := by
  refine ⟨by decide, ?_⟩
  have h := decode_wellFormedFrame 42 [[97, 98, 99], [100, 101]]
    (by decide) (by decide) (by decide)
  simpa using h

/-- C4: `Decode` returns an error (no response value) whenever the frame
header's 4-byte magic token differs from `0xFF7FF4FE`, and whenever the
stream ends before a complete frame header, chunk-count field, chunk-length
field, or chunk body has been read (every strict prefix of a well-formed
frame fails to decode); the decode is a single deterministic pass with no
skipping or retrying. -/
theorem decode_error_cases :
    (∀ bs : List Nat, beU32 (bs.take 4) ≠ RPCProtocolBeginToken →
      ∃ e, Decode bs = .error e) ∧
    (∀ (serial : Nat) (chunks : List (List Nat)) (pre suf : List Nat),
      chunks.length < 4294967296 → (∀ c ∈ chunks, c.length < 4294967296) →
      suf ≠ [] → encodeFrame serial chunks = pre ++ suf →
      ∃ e, Decode pre = .error e) := by
  constructor
  · intro bs htok
    by_cases h8 : bs.length < 8
    · exact ⟨"framer: read frame header num invalid",
        by simp only [Decode, readFull_short 8 bs h8]⟩
    · have e1 := readFull_all 8 bs (Nat.le_of_not_lt h8)
      have htake : (bs.take 8).take 4 = bs.take 4 := by
        rw [List.take_take]; norm_num
      exact ⟨"framer: read framer rpc protocol begin token not match",
        by simp only [Decode, e1, htake, ne_eq, htok, not_false_eq_true, if_true]⟩
  · intro serial chunks pre suf hc hl hsuf heq
    have heq' : (beBytes4 RPCProtocolBeginToken ++ beBytes4 serial)
        ++ (beBytes4 chunks.length ++ (chunks.map encodeChunk).flatten) = pre ++ suf := by
      simpa [encodeFrame, List.append_assoc] using heq
    by_cases h8 : pre.length < 8
    · exact ⟨"framer: read frame header num invalid",
        by simp only [Decode, readFull_short 8 pre h8]⟩
    · obtain ⟨hpre, hrest⟩ := append_eq_append_split _ _ _ _ heq'
        (by simpa using Nat.le_of_not_lt h8)
      simp only [List.length_append, beBytes4_length] at hpre hrest
      generalize hgen : pre.drop 8 = t at hpre hrest
      have e1 : readFull 8 pre
          = some (beBytes4 RPCProtocolBeginToken ++ beBytes4 serial, t) := by
        rw [hpre]; exact readFull_append _ _ 8 rfl
      have htok : (beBytes4 RPCProtocolBeginToken ++ beBytes4 serial).take 4
          = beBytes4 RPCProtocolBeginToken := rfl
      by_cases h4 : t.length < 4
      · exact ⟨"framer: read invalid list size num", by simp only [Decode, e1, htok,
          beU32_beBytes4 RPCProtocolBeginToken (by decide), ne_eq, not_true_eq_false,
          if_false, readFull_short 4 t h4]⟩
      · obtain ⟨htp, htr⟩ := append_eq_append_split (beBytes4 chunks.length)
          ((chunks.map encodeChunk).flatten) t suf hrest
          (by simpa [beBytes4_length] using Nat.le_of_not_lt h4)
        rw [beBytes4_length] at htp htr
        generalize hgen2 : t.drop 4 = u at htp htr
        have e2 : readFull 4 t = some (beBytes4 chunks.length, u) := by
          rw [htp]; exact readFull_append _ _ 4 (beBytes4_length _)
        obtain ⟨e, he⟩ := decodeChunkList_truncated chunks u suf [] hl hsuf htr
        exact ⟨e, by simp only [Decode, e1, htok,
          beU32_beBytes4 RPCProtocolBeginToken (by decide), ne_eq, not_true_eq_false,
          if_false, e2, beU32_beBytes4 _ hc, he]⟩

/-- Witness for C4: a frame whose token is wrong fails to decode, and the
spec's two-chunk frame truncated after 20 bytes (mid-chunk) fails to
decode. -/
theorem decode_error_cases_witness :
    (∃ e, Decode [1, 2, 3, 4, 0, 0, 0, 42, 0, 0, 0, 0] = .error e) ∧
    (∃ e, Decode [255, 127, 244, 254, 0, 0, 0, 42, 0, 0, 0, 2,
                  0, 0, 0, 3, 97, 98, 99, 0] = .error e) := by
  constructor
  · exact decode_error_cases.1 [1, 2, 3, 4, 0, 0, 0, 42, 0, 0, 0, 0] (by decide)
  · exact decode_error_cases.2 42 [[97, 98, 99], [100, 101]]
      [255, 127, 244, 254, 0, 0, 0, 42, 0, 0, 0, 2, 0, 0, 0, 3, 97, 98, 99, 0]
      [0, 0, 2, 100, 101] (by decide) (by decide) (by decide) (by decide)

/-! ## `HandleExpiredPartitions` lemmas -/

/-- The scan loop never panics when no stored partition is `nil`; it leaves
`usedPartitions`, `indexPartitions`, `partitionTimeouts` untouched, returns
exactly the keys of the expired entries, and clears `lastConsumed` on every
expired key's stored partition. -/
theorem expireScan_ok (curr waitMs : Int) (entries : List (String × Int)) :
    ∀ r : RmtDataCache, (∀ e ∈ r.partitions, e.2 ≠ none) →
      ∃ r1, r.expireScan entries curr waitMs
          = .ok (r1, (entries.filter fun e => decide (curr - e.2 > waitMs)).map Prod.fst) ∧
        r1.usedPartitions = r.usedPartitions ∧
        r1.indexPartitions = r.indexPartitions ∧
        r1.partitionTimeouts = r.partitionTimeouts ∧
        (∀ e ∈ r1.partitions, e.2 ≠ none) ∧
        (∀ k, alookup k r1.partitions =
          if k ∈ (entries.filter fun e => decide (curr - e.2 > waitMs)).map Prod.fst
          then (alookup k r.partitions).map
            (Option.map (fun q => { q with lastConsumed := false }))
          else alookup k r.partitions) := by
  induction entries with
  | nil =>
    intro r hnn
    exact ⟨r, rfl, rfl, rfl, rfl, hnn, fun k => by simp⟩
  | cons e rest ih =>
    intro r hnn
    obtain ⟨k0, t0⟩ := e
    by_cases hcond : curr - t0 > waitMs
    · rcases hp : alookup k0 r.partitions with _ | v
      · -- key absent from partitions: scan recurses on the same state
        obtain ⟨r1, hrun, hu, hi, ht, hnn1, hchar⟩ := ih r hnn
        refine ⟨r1, ?_, hu, hi, ht, hnn1, ?_⟩
        · simp only [RmtDataCache.expireScan, if_pos hcond, hp, hrun, List.filter_cons,
            decide_eq_true hcond, if_true, List.map_cons]
        · intro k
          rw [List.filter_cons]
          simp only [decide_eq_true hcond, if_true, List.map_cons, List.mem_cons]
          by_cases hk : k = k0
          · subst hk
            rw [hchar k]
            by_cases hkr : k ∈ (rest.filter fun e => decide (curr - e.2 > waitMs)).map Prod.fst <;>
              simp [hkr, hp]
          · rw [hchar k]
            exact if_congr (Iff.symm (or_iff_right hk)) rfl rfl
      · rcases v with _ | p
        · -- a stored nil partition is excluded by the hypothesis
          exact absurd rfl (hnn (k0, none) (alookup_mem hp))
        · -- expired and present: clear the flag, recurse on the updated state
          have hnn1 : ∀ e ∈ aput k0 (some { p with lastConsumed := false })
              r.partitions, e.2 ≠ none := by
            intro e he
            rcases mem_aput_values he with h | h
            · simp [h]
            · exact hnn e h
          obtain ⟨r1, hrun, hu, hi, ht, hnn2, hchar⟩ :=
            ih { r with partitions := aput k0 (some { p with lastConsumed := false }) r.partitions } hnn1
          refine ⟨r1, ?_, hu, hi, ht, hnn2, ?_⟩
          · simp only [RmtDataCache.expireScan, if_pos hcond, hp, hrun, List.filter_cons,
              decide_eq_true hcond, if_true, List.map_cons]
          · intro k
            rw [List.filter_cons]
            simp only [decide_eq_true hcond, if_true, List.map_cons, List.mem_cons]
            by_cases hk : k = k0
            · subst hk
              rw [hchar k]
              by_cases hkr : k ∈ (rest.filter fun e => decide (curr - e.2 > waitMs)).map Prod.fst
              · simp only [hkr, if_true, if_pos (Or.inr hkr), alookup_aput_self, hp,
                  Option.map_some]
                simp
              · simp only [hkr, if_false, if_pos (Or.inl rfl), alookup_aput_self, hp,
                  Option.map_some]
                simp
            · rw [hchar k, alookup_aput_ne _ _ hk]
              exact if_congr (Iff.symm (or_iff_right hk)) rfl rfl
    · -- not expired: the entry is skipped entirely
      obtain ⟨r1, hrun, hu, hi, ht, hnn1, hchar⟩ := ih r hnn
      refine ⟨r1, ?_, hu, hi, ht, hnn1, ?_⟩
      · simp only [RmtDataCache.expireScan, if_neg hcond, hrun, List.filter_cons]
        simp [hcond]
      · intro k
        rw [List.filter_cons]
        simp only [decide_eq_true_eq, hcond, decide_eq_false, if_false]
        exact hchar k

/-- Folding `resetIdlePartition · true` over a key list: `partitions` is
untouched; a folded key loses its lease and timer and is idle exactly when
it is present in `partitions`; other keys are untouched. -/
theorem foldReset_spec (ex : List String) :
    ∀ r : RmtDataCache,
      ((ex.foldl (fun s k => s.resetIdlePartition k true) r).partitions = r.partitions) ∧
      (∀ k, alookup k (ex.foldl (fun s k => s.resetIdlePartition k true) r).usedPartitions
        = if k ∈ ex then none else alookup k r.usedPartitions) ∧
      (∀ k, k ∈ (ex.foldl (fun s k => s.resetIdlePartition k true) r).indexPartitions
        ↔ (k ∈ ex ∧ (alookup k r.partitions).isSome = true)
          ∨ (¬ (k ∈ ex) ∧ k ∈ r.indexPartitions)) ∧
      (∀ k, k ∈ (ex.foldl (fun s k => s.resetIdlePartition k true) r).partitionTimeouts
        ↔ ¬ (k ∈ ex) ∧ k ∈ r.partitionTimeouts) := by
  induction ex with
  | nil => intro r; simp
  | cons a rest ih =>
    intro r
    have hfold : (a :: rest).foldl (fun s k => s.resetIdlePartition k true) r
        = rest.foldl (fun s k => s.resetIdlePartition k true) (r.resetIdlePartition a true) := rfl
    obtain ⟨ihp, ihu, ihi, iht⟩ := ih (r.resetIdlePartition a true)
    have hrp : (r.resetIdlePartition a true).partitions = r.partitions := by
      unfold RmtDataCache.resetIdlePartition
      by_cases hs : (alookup a r.partitions).isSome = true <;> simp [hs]
    have hru : (r.resetIdlePartition a true).usedPartitions = aerase a r.usedPartitions := by
      unfold RmtDataCache.resetIdlePartition
      by_cases hs : (alookup a r.partitions).isSome = true <;> simp [hs]
    have hrt : (r.resetIdlePartition a true).partitionTimeouts
        = serase a r.partitionTimeouts := by
      unfold RmtDataCache.resetIdlePartition
      by_cases hs : (alookup a r.partitions).isSome = true <;> simp [hs]
    have hridx : (r.resetIdlePartition a true).indexPartitions
        = if (alookup a r.partitions).isSome = true
          then sinsert a (serase a r.indexPartitions)
          else serase a r.indexPartitions := by
      unfold RmtDataCache.resetIdlePartition
      by_cases hs : (alookup a r.partitions).isSome = true <;> simp [hs]
    have hri : ∀ k, k ∈ (r.resetIdlePartition a true).indexPartitions
        ↔ (k = a ∧ (alookup a r.partitions).isSome = true)
          ∨ (k ≠ a ∧ k ∈ r.indexPartitions) := by
      intro k
      rw [hridx]
      by_cases hs : (alookup a r.partitions).isSome = true
      · rw [if_pos hs, mem_sinsert, mem_serase]
        constructor
        · rintro (⟨hk1, hk2⟩ | hk)
          · exact Or.inr ⟨hk2, hk1⟩
          · exact Or.inl ⟨hk, hs⟩
        · rintro (⟨hk, _⟩ | ⟨hk1, hk2⟩)
          · exact Or.inr hk
          · exact Or.inl ⟨hk2, hk1⟩
      · rw [if_neg hs, mem_serase]
        constructor
        · rintro ⟨hk1, hk2⟩
          exact Or.inr ⟨hk2, hk1⟩
        · rintro (⟨_, hS⟩ | ⟨hk1, hk2⟩)
          · exact absurd hS hs
          · exact ⟨hk2, hk1⟩
    refine ⟨?_, ?_, ?_, ?_⟩
    · rw [hfold, ihp, hrp]
    · intro k
      rw [hfold, ihu k, hru]
      by_cases hk : k ∈ rest
      · simp [hk]
      · by_cases hka : k = a
        · subst hka
          simp [hk, alookup_aerase_self]
        · simp [hk, hka, alookup_aerase_ne _ hka]
    · intro k
      rw [hfold, ihi k, hrp]
      constructor
      · rintro (⟨hk, hS⟩ | ⟨hk, hmem⟩)
        · exact Or.inl ⟨List.mem_cons_of_mem _ hk, hS⟩
        · rcases (hri k).mp hmem with ⟨hka, hS⟩ | ⟨hka, hidx⟩
          · subst hka
            exact Or.inl ⟨List.mem_cons_self _ _, hS⟩
          · exact Or.inr ⟨by simp [hka, hk], hidx⟩
      · rintro (⟨hk, hS⟩ | ⟨hk, hidx⟩)
        · rcases List.mem_cons.mp hk with hka | hkr
          · subst hka
            by_cases hkr : k ∈ rest
            · exact Or.inl ⟨hkr, hS⟩
            · exact Or.inr ⟨hkr, (hri k).mpr (Or.inl ⟨rfl, hS⟩)⟩
          · exact Or.inl ⟨hkr, hS⟩
        · have hka : k ≠ a := fun hh => hk (hh ▸ List.mem_cons_self a rest)
          have hkr : k ∉ rest := fun hh => hk (List.mem_cons_of_mem _ hh)
          exact Or.inr ⟨hkr, (hri k).mpr (Or.inr ⟨hka, hidx⟩)⟩
    · intro k
      rw [hfold, iht k, hrt, mem_serase]
      simp only [List.mem_cons, not_or]
      constructor
      · rintro ⟨hkr, hkt, hka⟩
        exact ⟨⟨hka, hkr⟩, hkt⟩
      · rintro ⟨⟨hka, hkr⟩, hkt⟩
        exact ⟨hkr, hkt, hka⟩

/-! ## `RemoveAndGetPartition` lemmas -/

theorem alookup_append_left {κ α : Type} [DecidableEq κ] {k : κ} {v : α}
    {m m' : List (κ × α)} (h : alookup k m = some v) :
    alookup k (m ++ m') = some v := by
  induction m with
  | nil => simp [alookup] at h
  | cons e rest ih =>
    by_cases he : e.1 = k
    · simpa [alookup, he] using h
    · simpa [alookup, he] using ih (by simpa [alookup, he] using h)

theorem alookup_append_right {κ α : Type} [DecidableEq κ] {k : κ}
    {m m' : List (κ × α)} (h : alookup k m = none) :
    alookup k (m ++ m') = alookup k m' := by
  induction m with
  | nil => simp
  | cons e rest ih =>
    by_cases he : e.1 = k
    · simp [alookup, he] at h
    · simpa [alookup, he] using ih (by simpa [alookup, he] using h)

theorem grouped_appendToBrokerMap_self (out : RmtDataCache.BrokerMap) (b : Nat)
    (p : Partition) : grouped (RmtDataCache.appendToBrokerMap out b p) b p = true := by
  unfold RmtDataCache.appendToBrokerMap
  cases h : alookup b out with
  | none =>
    unfold grouped
    rw [alookup_append_right h]
    simp [alookup]
  | some l =>
    unfold grouped
    rw [alookup_aput_self]
    simp

theorem grouped_appendToBrokerMap_mono {out : RmtDataCache.BrokerMap} {b : Nat}
    {p : Partition} (b' : Nat) (p' : Partition) (h : grouped out b p = true) :
    grouped (RmtDataCache.appendToBrokerMap out b' p') b p = true := by
  unfold RmtDataCache.appendToBrokerMap
  obtain ⟨l, hl, hm⟩ : ∃ l, alookup b out = some l ∧ p ∈ l := by
    unfold grouped at h
    rcases hb : alookup b out with _ | l
    · rw [hb] at h; simp at h
    · rw [hb] at h; exact ⟨l, rfl, by simpa using h⟩
  cases hb' : alookup b' out with
  | none =>
    unfold grouped
    rw [alookup_append_left hl]
    simp [hm]
  | some l' =>
    by_cases hbb : b = b'
    · subst hbb
      rw [hl] at hb'
      obtain rfl : l = l' := by simpa using hb'
      unfold grouped
      rw [alookup_aput_self]
      simp [hm]
    · unfold grouped
      rw [alookup_aput_ne _ _ hbb, hl]
      simp [hm]

/-- `resetIdlePartition` with `reuse = false` only erases the key's lease,
timer and idle entries. -/
theorem resetIdle_false_fields (r : RmtDataCache) (k : String) :
    (r.resetIdlePartition k false).partitions = r.partitions ∧
    (r.resetIdlePartition k false).usedPartitions = aerase k r.usedPartitions ∧
    (r.resetIdlePartition k false).indexPartitions = serase k r.indexPartitions ∧
    (r.resetIdlePartition k false).partitionTimeouts = serase k r.partitionTimeouts := by
  unfold RmtDataCache.resetIdlePartition
  simp

/-- `removeMetaInfo` on a key holding a real partition succeeds and touches
only the metadata maps. -/
theorem removeMetaInfo_ok_fields (r : RmtDataCache) (k : String) (q : Partition)
    (h : alookup k r.partitions = some (some q)) :
    ∃ r2, r.removeMetaInfo k = .ok r2 ∧
      r2.partitions = aerase k r.partitions ∧
      r2.usedPartitions = r.usedPartitions ∧
      r2.indexPartitions = r.indexPartitions ∧
      r2.partitionTimeouts = r.partitionTimeouts ∧
      r2.partitionSubInfo = aerase k r.partitionSubInfo := by
  unfold RmtDataCache.removeMetaInfo
  rw [h]
  exact ⟨_, rfl, rfl, rfl, rfl, rfl, rfl⟩

/-- `removeMetaInfo` panics only on a stored `nil` partition. -/
theorem removeMetaInfo_panicked_inv {r : RmtDataCache} {k : String} {r2 : RmtDataCache}
    (h : r.removeMetaInfo k = .panicked r2) : alookup k r.partitions = some none := by
  unfold RmtDataCache.removeMetaInfo at h
  rcases hl : alookup k r.partitions with _ | v
  · rw [hl] at h
    simp at h
  · rcases v with _ | q
    · rfl
    · rw [hl] at h
      simp at h

/-- Inversion for a successful `removeMetaInfo` on a real partition. -/
theorem removeMetaInfo_ok_inv {r : RmtDataCache} {k : String} {r2 : RmtDataCache}
    (h : r.removeMetaInfo k = .ok r2) (q : Partition)
    (hq : alookup k r.partitions = some (some q)) :
    r2.partitions = aerase k r.partitions ∧
    r2.usedPartitions = r.usedPartitions ∧
    r2.indexPartitions = r.indexPartitions ∧
    r2.partitionTimeouts = r.partitionTimeouts := by
  unfold RmtDataCache.removeMetaInfo at h
  rw [hq] at h
  rcases h.symm.trans rfl with h'
  cases h'
  exact ⟨rfl, rfl, rfl, rfl⟩

/-- The revocation loop only ever appends to the broker-grouped output. -/
theorem removeAndGetLoop_grouped_mono (subs : List SubscribeInfo) :
    ∀ (r : RmtDataCache) (rb : Bool) (out : RmtDataCache.BrokerMap) (b : Nat) (p : Partition),
      grouped out b p = true →
      grouped (r.removeAndGetLoop subs rb out).state.snd b p = true := by
  induction subs with
  | nil => intro r rb out b p h; exact h
  | cons sub rest ih =>
    intro r rb out b p h
    show grouped (RmtDataCache.removeAndGetLoop r (sub :: rest) rb out).state.snd b p = true
    simp only [RmtDataCache.removeAndGetLoop]
    rcases hp : alookup sub.partition.key r.partitions with _ | v
    · simp only [hp]
      exact ih _ rb out b p h
    · rcases v with _ | q
      · simp only [hp]
        exact h
      · simp only [hp]
        split
        · exact grouped_appendToBrokerMap_mono _ _ h
        · exact ih _ rb _ b p (grouped_appendToBrokerMap_mono _ _ h)

/-- Full characterization of the revocation loop on a cache with no `nil`
partitions: it never panics, every processed key loses its `partitions`,
lease, idle and timer entries, every other key is untouched, and every
processed key that was present is appended to its broker's output group
with `lastConsumed` set by the rollback flag exactly when it was leased. -/
theorem removeAndGetLoop_spec (subs : List SubscribeInfo) :
    ∀ (r : RmtDataCache) (rb : Bool) (out : RmtDataCache.BrokerMap),
      (∀ e ∈ r.partitions, e.2 ≠ none) →
      ∃ r' out', r.removeAndGetLoop subs rb out = .ok (r', out') ∧
        (∀ k, alookup k r'.partitions =
          if k ∈ subs.map (fun s => s.partition.key) then none else alookup k r.partitions) ∧
        (∀ k, alookup k r'.usedPartitions =
          if k ∈ subs.map (fun s => s.partition.key) then none
          else alookup k r.usedPartitions) ∧
        (∀ k, k ∈ r'.indexPartitions ↔
          ¬ (k ∈ subs.map (fun s => s.partition.key)) ∧ k ∈ r.indexPartitions) ∧
        (∀ k, k ∈ r'.partitionTimeouts ↔
          ¬ (k ∈ subs.map (fun s => s.partition.key)) ∧ k ∈ r.partitionTimeouts) ∧
        (∀ sub ∈ subs, ∀ p : Partition,
          alookup sub.partition.key r.partitions = some (some p) →
          grouped out' p.broker
            (if (alookup sub.partition.key r.usedPartitions).isSome = true
             then { p with lastConsumed := !rb } else p) = true) := by
  induction subs with
  | nil =>
    intro r rb out _
    exact ⟨r, out, rfl, by simp, by simp, by simp, by simp, by simp⟩
  | cons sub rest ih =>
    intro r rb out hnn
    rcases hp : alookup sub.partition.key r.partitions with _ | v
    · -- key absent: only the idle-state reset runs
      obtain ⟨f1, f2, f3, f4⟩ := resetIdle_false_fields r sub.partition.key
      have hnn1 : ∀ e ∈ (r.resetIdlePartition sub.partition.key false).partitions,
          e.2 ≠ none := by
        rw [f1]; exact hnn
      obtain ⟨r', out', hrun, cp, cu, ci, ct, cg⟩ :=
        ih (r.resetIdlePartition sub.partition.key false) rb out hnn1
      refine ⟨r', out', ?_, ?_, ?_, ?_, ?_, ?_⟩
      · simp only [RmtDataCache.removeAndGetLoop, hp]
        exact hrun
      · intro k
        rw [cp k, f1]
        by_cases hk : k ∈ rest.map (fun s => s.partition.key)
        · simp [hk]
        · by_cases hk0 : k = sub.partition.key
          · subst hk0
            simp [hk, hp]
          · simp [hk, hk0]
      · intro k
        rw [cu k, f2]
        by_cases hk : k ∈ rest.map (fun s => s.partition.key)
        · simp [hk]
        · by_cases hk0 : k = sub.partition.key
          · subst hk0
            simp [hk, alookup_aerase_self]
          · rw [alookup_aerase_ne _ hk0]
            simp [hk, hk0]
      · intro k
        rw [ci k, f3, mem_serase]
        simp only [List.map_cons, List.mem_cons, not_or]
        tauto
      · intro k
        rw [ct k, f4, mem_serase]
        simp only [List.map_cons, List.mem_cons, not_or]
        tauto
      · intro sub' hmem' p hpp
        rcases List.mem_cons.mp hmem' with h | h
        · subst h
          rw [hp] at hpp
          simp at hpp
        · by_cases hk0 : sub'.partition.key = sub.partition.key
          · rw [hk0, hp] at hpp
            simp at hpp
          · have hpp2 : alookup sub'.partition.key
                (r.resetIdlePartition sub.partition.key false).partitions
                = some (some p) := by
              rw [f1]; exact hpp
            have hres := cg sub' h p hpp2
            rw [f2, alookup_aerase_ne _ hk0] at hres
            exact hres
    · rcases v with _ | q
      · -- a stored nil partition is excluded by the hypothesis
        exact absurd rfl (hnn (sub.partition.key, none) (alookup_mem hp))
      · -- key present: flag update, broker grouping, metadata purge, idle reset
        simp only [RmtDataCache.removeAndGetLoop, hp]
        generalize hp1 : (if (alookup sub.partition.key r.usedPartitions).isSome = true
            then { q with lastConsumed := !rb } else q) = p1
        have hbroker : p1.broker = q.broker := by
          rw [← hp1]
          by_cases hc : (alookup sub.partition.key r.usedPartitions).isSome = true <;>
            simp [hc]
        split
        · -- removeMetaInfo cannot panic here
          next r2 heq =>
            have hnil := removeMetaInfo_panicked_inv heq
            rw [show ({ r with partitions := aput sub.partition.key (some p1) r.partitions
              } : RmtDataCache).partitions = aput sub.partition.key (some p1) r.partitions
              from rfl, alookup_aput_self] at hnil
            simp at hnil
        · next r2 heq =>
            obtain ⟨g1, g2, g3, g4⟩ := removeMetaInfo_ok_inv heq p1 (alookup_aput_self _ _ _)
            obtain ⟨f1, f2, f3, f4⟩ := resetIdle_false_fields r2 sub.partition.key
            have hnn2 : ∀ e ∈ (r2.resetIdlePartition sub.partition.key false).partitions,
                e.2 ≠ none := by
              rw [f1, g1]
              intro e he
              rcases mem_aput_values (mem_aerase_values he) with h | h
              · simp [h]
              · exact hnn e h
            obtain ⟨r', out', hrun, cp, cu, ci, ct, cg⟩ :=
              ih (r2.resetIdlePartition sub.partition.key false) rb
                (RmtDataCache.appendToBrokerMap out p1.broker p1) hnn2
            have hgrouped : grouped out' p1.broker p1 = true := by
              have hmono := removeAndGetLoop_grouped_mono rest
                (r2.resetIdlePartition sub.partition.key false) rb
                (RmtDataCache.appendToBrokerMap out p1.broker p1) p1.broker p1
                (grouped_appendToBrokerMap_self out p1.broker p1)
              rw [hrun] at hmono
              exact hmono
            refine ⟨r', out', hrun, ?_, ?_, ?_, ?_, ?_⟩
            · intro k
              rw [cp k, f1, g1]
              by_cases hk : k ∈ rest.map (fun s => s.partition.key)
              · simp [hk]
              · by_cases hk0 : k = sub.partition.key
                · subst hk0
                  simp [hk, alookup_aerase_self]
                · rw [alookup_aerase_ne _ hk0, alookup_aput_ne _ _ hk0]
                  simp [hk, hk0]
            · intro k
              rw [cu k, f2, g2]
              by_cases hk : k ∈ rest.map (fun s => s.partition.key)
              · simp [hk]
              · by_cases hk0 : k = sub.partition.key
                · subst hk0
                  simp [hk, alookup_aerase_self]
                · rw [alookup_aerase_ne _ hk0]
                  simp [hk, hk0]
            · intro k
              rw [ci k, f3, g3, mem_serase]
              simp only [List.map_cons, List.mem_cons, not_or]
              tauto
            · intro k
              rw [ct k, f4, g4, mem_serase]
              simp only [List.map_cons, List.mem_cons, not_or]
              tauto
            · intro sub' hmem' p hpp
              rcases List.mem_cons.mp hmem' with h | h
              · subst h
                rw [hp] at hpp
                obtain rfl : q = p := by simpa using hpp
                rw [hp1, ← hbroker]
                exact hgrouped
              · by_cases hk0 : sub'.partition.key = sub.partition.key
                · rw [hk0] at hpp ⊢
                  rw [hp] at hpp
                  obtain rfl : q = p := by simpa using hpp
                  rw [hp1, ← hbroker]
                  exact hgrouped
                · have hpp2 : alookup sub'.partition.key
                      (r2.resetIdlePartition sub.partition.key false).partitions
                      = some (some p) := by
                    rw [f1, g1, alookup_aerase_ne _ hk0, alookup_aput_ne _ _ hk0]
                    exact hpp
                  have hres := cg sub' h p hpp2
                  rw [f2, g2, alookup_aerase_ne _ hk0] at hres
                  exact hres

/-! ## Claim theorem: bulk revocation (`RemoveAndGetPartition`) -/

/-- C6: for every `SubscribeInfo` in the input of `RemoveAndGetPartition`
(on a cache holding no `nil` partitions), a present-and-leased partition is
handed to its broker's output group with `lastConsumed` set to `false` when
`processingRollback` is true and `true` otherwise; a present-but-unleased
partition is handed over with its flag unmodified; and in all cases —
including keys absent from `partitions` — the key's lease/idle/timer state
is cleared. -/
theorem removeAndGet_spec (r : RmtDataCache) (subs : List SubscribeInfo) (rb : Bool)
    (out : RmtDataCache.BrokerMap)
    (hnn : ∀ e ∈ r.partitions, e.2 ≠ none) :
    ∃ r' out', r.RemoveAndGetPartition subs rb out = .ok (r', out') ∧
      ∀ sub ∈ subs,
        (alookup sub.partition.key r'.usedPartitions = none ∧
         ¬ (sub.partition.key ∈ r'.indexPartitions) ∧
         ¬ (sub.partition.key ∈ r'.partitionTimeouts)) ∧
        (∀ p : Partition, alookup sub.partition.key r.partitions = some (some p) →
          ((alookup sub.partition.key r.usedPartitions).isSome = true →
            grouped out' p.broker { p with lastConsumed := !rb } = true) ∧
          ((alookup sub.partition.key r.usedPartitions).isSome = false →
            grouped out' p.broker p = true)) := by
  by_cases hempty : subs = []
  · subst hempty
    exact ⟨r, out, by simp [RmtDataCache.RemoveAndGetPartition], by simp⟩
  · obtain ⟨r', out', hrun, cp, cu, ci, ct, cg⟩ := removeAndGetLoop_spec subs r rb out hnn
    refine ⟨r', out', ?_, ?_⟩
    · simp only [RmtDataCache.RemoveAndGetPartition, if_neg hempty]
      exact hrun
    · intro sub hmem
      have hkmem : sub.partition.key ∈ subs.map (fun s => s.partition.key) :=
        List.mem_map.mpr ⟨sub, hmem, rfl⟩
      refine ⟨⟨?_, ?_, ?_⟩, ?_⟩
      · rw [cu _, if_pos hkmem]
      · intro hidx
        exact ((ci _).mp hidx).1 hkmem
      · intro htm
        exact ((ct _).mp htm).1 hkmem
      · intro p hpp
        have hg := cg sub hmem p hpp
        constructor
        · intro hcond
          rw [if_pos hcond] at hg
          exact hg
        · intro hcond
          rw [if_neg (by simp [hcond])] at hg
          exact hg

/-- Witness for C6: revoking a present, leased partition with
`processingRollback = true` from a concrete one-partition cache. -/
theorem removeAndGet_spec_witness :
    ∃ r' out', RmtDataCache.RemoveAndGetPartition
        { NewRmtDataCache with
          partitions := [("p1", some ⟨"topicA", "p1", 1, true⟩)],
          usedPartitions := [("p1", 100)],
          partitionTimeouts := ["p1"] }
        [⟨⟨"topicA", "p1", 1, true⟩, "c1", "g1"⟩] true [] = .ok (r', out') ∧
      ∀ sub ∈ [(⟨⟨"topicA", "p1", 1, true⟩, "c1", "g1"⟩ : SubscribeInfo)],
        (alookup sub.partition.key r'.usedPartitions = none ∧
         ¬ (sub.partition.key ∈ r'.indexPartitions) ∧
         ¬ (sub.partition.key ∈ r'.partitionTimeouts)) ∧
        (∀ p : Partition,
          alookup sub.partition.key
            [("p1", some (⟨"topicA", "p1", 1, true⟩ : Partition))] = some (some p) →
          ((alookup sub.partition.key [("p1", (100 : Int))]).isSome = true →
            grouped out' p.broker { p with lastConsumed := !true } = true) ∧
          ((alookup sub.partition.key [("p1", (100 : Int))]).isSome = false →
            grouped out' p.broker p = true)) :=
  removeAndGet_spec
    { NewRmtDataCache with
      partitions := [("p1", some ⟨"topicA", "p1", 1, true⟩)],
      usedPartitions := [("p1", 100)],
      partitionTimeouts := ["p1"] }
    [⟨⟨"topicA", "p1", 1, true⟩, "c1", "g1"⟩] true [] (by decide)

/-! ## Claim theorem: lease expiry (`HandleExpiredPartitions`) -/

/-- C5: a lease `(k, T)` in `usedPartitions` (the cache holding no `nil`
partitions, `k`'s partition present) is reclaimed by
`HandleExpiredPartitions` — lease removed, `lastConsumed` set to `false`,
key returned to the idle pool, pending timer dropped — if and only if
`now - T > wait` in milliseconds; a younger lease is left entirely
untouched. -/
theorem handleExpired_spec (r : RmtDataCache) (curr waitMs : Int) (k : String) (T : Int)
    (p : Partition)
    (hnn : ∀ e ∈ r.partitions, e.2 ≠ none)
    (hnd : (r.usedPartitions.map Prod.fst).Nodup)
    (hused : (k, T) ∈ r.usedPartitions)
    (hpart : alookup k r.partitions = some (some p)) :
    ∃ r', r.HandleExpiredPartitions curr waitMs = .ok r' ∧
      (if curr - T > waitMs then
        alookup k r'.usedPartitions = none ∧
        alookup k r'.partitions = some (some { p with lastConsumed := false }) ∧
        k ∈ r'.indexPartitions ∧ ¬ (k ∈ r'.partitionTimeouts)
      else
        alookup k r'.usedPartitions = some T ∧
        alookup k r'.partitions = some (some p) ∧
        (k ∈ r'.indexPartitions ↔ k ∈ r.indexPartitions) ∧
        (k ∈ r'.partitionTimeouts ↔ k ∈ r.partitionTimeouts)) := by
  have hne : ¬ (r.usedPartitions = []) := by
    intro h
    rw [h] at hused
    simp at hused
  obtain ⟨r1, hrun, hu, hi, ht, hnn1, hchar⟩ := expireScan_ok curr waitMs r.usedPartitions r hnn
  have hmem : k ∈ (r.usedPartitions.filter fun e => decide (curr - e.2 > waitMs)).map Prod.fst
      ↔ (curr - T > waitMs) := by
    rw [mem_filter_keys_nodup _ hnd hused]
    simp
  obtain ⟨fp, fu, fi, ftm⟩ :=
    foldReset_spec ((r.usedPartitions.filter fun e => decide (curr - e.2 > waitMs)).map Prod.fst) r1
  refine ⟨(((r.usedPartitions.filter fun e => decide (curr - e.2 > waitMs)).map
      Prod.fst).foldl (fun s k => s.resetIdlePartition k true) r1), ?_, ?_⟩
  · simp only [RmtDataCache.HandleExpiredPartitions, if_neg hne, hrun]
  · by_cases hcond : curr - T > waitMs
    · rw [if_pos hcond]
      have hkex := hmem.mpr hcond
      refine ⟨?_, ?_, ?_, ?_⟩
      · rw [fu k, if_pos hkex]
      · rw [fp, hchar k, if_pos hkex, hpart]
        rfl
      · refine (fi k).mpr (Or.inl ⟨hkex, ?_⟩)
        rw [hchar k, if_pos hkex, hpart]
        rfl
      · intro hmem'
        exact ((ftm k).mp hmem').1 hkex
    · rw [if_neg hcond]
      have hkex : ¬ (k ∈ (r.usedPartitions.filter
          fun e => decide (curr - e.2 > waitMs)).map Prod.fst) :=
        fun hh => hcond (hmem.mp hh)
      refine ⟨?_, ?_, ?_, ?_⟩
      · rw [fu k, if_neg hkex, hu, alookup_eq_of_mem_nodup hnd hused]
      · rw [fp, hchar k, if_neg hkex]
        exact hpart
      · rw [fi k, hi]
        simp [hkex]
      · rw [ftm k, ht]
        simp [hkex]

/-- Witness for C5: a lease taken at T = 100 with now = 200 and wait = 50 ms
is expired (200 - 100 > 50) and reclaimed. -/
theorem handleExpired_spec_witness :
    ∃ r', RmtDataCache.HandleExpiredPartitions
        { NewRmtDataCache with
          partitions := [("p1", some ⟨"topicA", "p1", 1, true⟩)],
          usedPartitions := [("p1", 100)],
          partitionTimeouts := ["p1"] } 200 50 = .ok r' ∧
      (if (200 : Int) - 100 > 50 then
        alookup "p1" r'.usedPartitions = none ∧
        alookup "p1" r'.partitions = some (some ⟨"topicA", "p1", 1, false⟩) ∧
        "p1" ∈ r'.indexPartitions ∧ ¬ ("p1" ∈ r'.partitionTimeouts)
      else
        alookup "p1" r'.usedPartitions = some 100 ∧
        alookup "p1" r'.partitions = some (some ⟨"topicA", "p1", 1, true⟩) ∧
        ("p1" ∈ r'.indexPartitions ↔ "p1" ∈ ([] : List String)) ∧
        ("p1" ∈ r'.partitionTimeouts ↔ "p1" ∈ ["p1"])) :=
  handleExpired_spec
    { NewRmtDataCache with
      partitions := [("p1", some ⟨"topicA", "p1", 1, true⟩)],
      usedPartitions := [("p1", 100)],
      partitionTimeouts := ["p1"] } 200 50 "p1" 100 ⟨"topicA", "p1", 1, true⟩
    (by decide) (by decide) (by decide) (by decide)

/-! ## Lease/idle exclusion invariant (C9) -/

theorem inv_isSome_congr (r r' : RmtDataCache)
    (hp : ∀ k, (alookup k r'.partitions).isSome = (alookup k r.partitions).isSome)
    (hu : r'.usedPartitions = r.usedPartitions)
    (hi : r'.indexPartitions = r.indexPartitions)
    (hInv : UsedIndexInv r) : UsedIndexInv r' := by
  obtain ⟨i1, i2, i3⟩ := hInv
  refine ⟨?_, ?_, ?_⟩ <;> intro k hk
  · rw [hu] at hk
    rw [hi]
    exact i1 k hk
  · rw [hu] at hk
    rw [hp]
    exact i2 k hk
  · rw [hi] at hk
    rw [hp]
    exact i3 k hk

theorem inv_fields_eq (r r' : RmtDataCache)
    (hp : r'.partitions = r.partitions)
    (hu : r'.usedPartitions = r.usedPartitions)
    (hi : r'.indexPartitions = r.indexPartitions)
    (hInv : UsedIndexInv r) : UsedIndexInv r' :=
  inv_isSome_congr r r' (fun k => by rw [hp]) hu hi hInv

/-- Invariant transfer when every key's state is either untouched or fully
cleared of lease/idle entries. -/
theorem inv_transfer (r r' : RmtDataCache) (k0 : String) (hInv : UsedIndexInv r)
    (hp : ∀ k', ¬ (k' = k0) → alookup k' r'.partitions = alookup k' r.partitions)
    (hu : ∀ k', (alookup k' r'.usedPartitions).isSome = true →
      ¬ (k' = k0) ∧ (alookup k' r.usedPartitions).isSome = true)
    (hi : ∀ k', k' ∈ r'.indexPartitions → ¬ (k' = k0) ∧ k' ∈ r.indexPartitions) :
    UsedIndexInv r' := by
  obtain ⟨i1, i2, i3⟩ := hInv
  refine ⟨?_, ?_, ?_⟩ <;> intro k hk
  · intro hidx
    exact i1 k (hu k hk).2 (hi k hidx).2
  · obtain ⟨hne, hold⟩ := hu k hk
    rw [hp k hne]
    exact i2 k hold
  · obtain ⟨hne, hold⟩ := hi k hk
    rw [hp k hne]
    exact i3 k hold

theorem isSome_alookup_aerase {κ α : Type} [DecidableEq κ] (k k' : κ) (m : List (κ × α))
    (h : (alookup k' (aerase k m)).isSome = true) :
    ¬ (k' = k) ∧ (alookup k' m).isSome = true := by
  by_cases hk : k' = k
  · subst hk
    rw [alookup_aerase_self] at h
    simp at h
  · rw [alookup_aerase_ne _ hk] at h
    exact ⟨hk, h⟩

/-- `resetIdlePartition` preserves the lease/idle exclusion invariant, with
either value of `reuse`. -/
theorem inv_resetIdlePartition (r : RmtDataCache) (k0 : String) (reuse : Bool)
    (hInv : UsedIndexInv r) : UsedIndexInv (r.resetIdlePartition k0 reuse) := by
  obtain ⟨i1, i2, i3⟩ := hInv
  have hrp : (r.resetIdlePartition k0 reuse).partitions = r.partitions := by
    unfold RmtDataCache.resetIdlePartition
    rcases reuse with _ | _ <;>
      [skip; by_cases hs : (alookup k0 r.partitions).isSome = true] <;> simp_all
  have hru : (r.resetIdlePartition k0 reuse).usedPartitions = aerase k0 r.usedPartitions := by
    unfold RmtDataCache.resetIdlePartition
    rcases reuse with _ | _ <;>
      [skip; by_cases hs : (alookup k0 r.partitions).isSome = true] <;> simp_all
  have hri : ∀ k, k ∈ (r.resetIdlePartition k0 reuse).indexPartitions →
      (k = k0 ∧ (alookup k0 r.partitions).isSome = true)
        ∨ (¬ (k = k0) ∧ k ∈ r.indexPartitions) := by
    intro k hk
    unfold RmtDataCache.resetIdlePartition at hk
    rcases reuse with _ | _
    · simp only [Bool.false_eq_true, if_false] at hk
      rcases mem_serase.mp hk with ⟨hm, hne⟩
      exact Or.inr ⟨hne, hm⟩
    · by_cases hs : (alookup k0 r.partitions).isSome = true
      · simp only [hs, if_true] at hk
        rcases mem_sinsert.mp hk with hm | hm
        · rcases mem_serase.mp hm with ⟨hm', hne⟩
          exact Or.inr ⟨hne, hm'⟩
        · exact Or.inl ⟨hm, hs⟩
      · simp only [hs, Bool.false_eq_true, if_false, if_true] at hk
        rcases mem_serase.mp hk with ⟨hm, hne⟩
        exact Or.inr ⟨hne, hm⟩
  refine ⟨?_, ?_, ?_⟩ <;> intro k hk
  · rw [hru] at hk
    obtain ⟨hne, hold⟩ := isSome_alookup_aerase k0 k r.usedPartitions hk
    intro hidx
    rcases hri k hidx with ⟨heq, _⟩ | ⟨_, hm⟩
    · exact hne heq
    · exact i1 k hold hm
  · rw [hru] at hk
    obtain ⟨hne, hold⟩ := isSome_alookup_aerase k0 k r.usedPartitions hk
    rw [hrp]
    exact i2 k hold
  · rcases hri k hk with ⟨heq, hsome⟩ | ⟨_, hm⟩
    · rw [hrp, heq]
      exact hsome
    · rw [hrp]
      exact i3 k hm

theorem isSome_alookup_aput {κ α : Type} [DecidableEq κ] (k k' : κ) (v : α)
    (m : List (κ × α)) (h : (alookup k' m).isSome = true) :
    (alookup k' (aput k v m)).isSome = true := by
  by_cases hk : k' = k
  · subst hk
    rw [alookup_aput_self]
    rfl
  · rw [alookup_aput_ne _ _ hk]
    exact h

/-- Invariant transfer when `partitions` only grows (key-presence-wise) and
the lease/idle sets are unchanged. -/
theorem inv_partitions_mono (r r' : RmtDataCache)
    (hp : ∀ k, (alookup k r.partitions).isSome = true →
      (alookup k r'.partitions).isSome = true)
    (hu : r'.usedPartitions = r.usedPartitions)
    (hi : r'.indexPartitions = r.indexPartitions)
    (hInv : UsedIndexInv r) : UsedIndexInv r' := by
  obtain ⟨i1, i2, i3⟩ := hInv
  refine ⟨?_, ?_, ?_⟩ <;> intro k hk
  · rw [hu] at hk
    rw [hi]
    exact i1 k hk
  · rw [hu] at hk
    exact hp k (i2 k hk)
  · rw [hi] at hk
    exact hp k (i3 k hk)

/-- `AddNewPartition` preserves the invariant: a fresh key panics with only
the (nil) `partitions` insertion done; a present key is reset to idle. -/
theorem inv_addNewPartition (r : RmtDataCache) (p : Partition)
    (hInv : UsedIndexInv r) : UsedIndexInv (r.AddNewPartition p).state := by
  rcases hl : alookup p.key r.partitions with _ | v
  · simp only [RmtDataCache.AddNewPartition, hl]
    exact inv_partitions_mono r _
      (fun k h => isSome_alookup_aput p.key k none r.partitions h) rfl rfl hInv
  · simp only [RmtDataCache.AddNewPartition, hl]
    exact inv_resetIdlePartition r p.key true hInv

/-- A panicking `removeMetaInfo` leaves the state untouched. -/
theorem removeMetaInfo_panicked_state {r r2 : RmtDataCache} {k : String}
    (h : r.removeMetaInfo k = .panicked r2) : r2 = r := by
  unfold RmtDataCache.removeMetaInfo at h
  rcases hl : alookup k r.partitions with _ | v
  · rw [hl] at h
    simp at h
  · rcases v with _ | q
    · rw [hl] at h
      exact (OpResult.panicked.inj h).symm
    · rw [hl] at h
      simp at h

/-- `removeMetaInfo` preserves the invariant when the key's lease/idle
entries are already cleared. -/
theorem inv_removeMetaInfo_cleared (r : RmtDataCache) (k : String)
    (hInv : UsedIndexInv r)
    (hu0 : alookup k r.usedPartitions = none)
    (hi0 : ¬ (k ∈ r.indexPartitions)) :
    UsedIndexInv (r.removeMetaInfo k).state := by
  rcases hres : r.removeMetaInfo k with r2 | r2
  · rcases hl : alookup k r.partitions with _ | v
    · have h2 : (OpResult.ok r : OpResult RmtDataCache) = .ok r2 := by
        rw [← hres]
        simp only [RmtDataCache.removeMetaInfo, hl]
      cases OpResult.ok.inj h2
      exact hInv
    · rcases v with _ | q
      · have h2 : r.removeMetaInfo k = .panicked r := by
          simp only [RmtDataCache.removeMetaInfo, hl]
        rw [h2] at hres
        simp at hres
      · obtain ⟨g1, g2, g3, g4⟩ := removeMetaInfo_ok_inv hres q hl
        refine inv_transfer r r2 k hInv ?_ ?_ ?_
        · intro k' hne
          rw [g1, alookup_aerase_ne _ hne]
        · intro k' hk
          rw [g2] at hk
          refine ⟨?_, hk⟩
          intro heq
          rw [heq, hu0] at hk
          simp at hk
        · intro k' hk
          rw [g3] at hk
          refine ⟨?_, hk⟩
          intro heq
          rw [heq] at hk
          exact hi0 hk
  · have h2 := removeMetaInfo_panicked_state hres
    subst h2
    exact hInv

/-- The loop of `RemovePartition` preserves the invariant. -/
theorem inv_removePartitionLoop (ks : List String) :
    ∀ r : RmtDataCache, UsedIndexInv r → UsedIndexInv (r.removePartitionLoop ks).state := by
  induction ks with
  | nil => intro r h; exact h
  | cons k rest ih =>
    intro r hInv
    simp only [RmtDataCache.removePartitionLoop]
    have hInv1 := inv_resetIdlePartition r k false hInv
    obtain ⟨f1, f2, f3, f4⟩ := resetIdle_false_fields r k
    have hu0 : alookup k (r.resetIdlePartition k false).usedPartitions = none := by
      rw [f2, alookup_aerase_self]
    have hi0 : ¬ (k ∈ (r.resetIdlePartition k false).indexPartitions) := by
      rw [f3]
      intro hm
      exact (mem_serase.mp hm).2 rfl
    have hstep := inv_removeMetaInfo_cleared (r.resetIdlePartition k false) k hInv1 hu0 hi0
    split
    · next r2 heq =>
      rw [heq] at hstep
      exact hstep
    · next r2 heq =>
      rw [heq] at hstep
      exact ih r2 hstep

/-- The loop of `RemoveAndGetPartition` preserves the invariant, panic
states included. -/
theorem inv_removeAndGetLoop (subs : List SubscribeInfo) :
    ∀ (r : RmtDataCache) (rb : Bool) (out : RmtDataCache.BrokerMap),
      UsedIndexInv r → UsedIndexInv (r.removeAndGetLoop subs rb out).state.fst := by
  induction subs with
  | nil => intro r rb out h; exact h
  | cons sub rest ih =>
    intro r rb out hInv
    simp only [RmtDataCache.removeAndGetLoop]
    rcases hp : alookup sub.partition.key r.partitions with _ | v
    · simp only [hp]
      exact ih _ rb out (inv_resetIdlePartition r sub.partition.key false hInv)
    · rcases v with _ | q
      · simp only [hp]
        exact hInv
      · simp only [hp]
        generalize (if (alookup sub.partition.key r.usedPartitions).isSome = true
            then { q with lastConsumed := !rb } else q) = p1
        split
        · next r2 heq =>
          have hnil := removeMetaInfo_panicked_inv heq
          rw [show ({ r with partitions := aput sub.partition.key (some p1) r.partitions
            } : RmtDataCache).partitions = aput sub.partition.key (some p1) r.partitions
            from rfl, alookup_aput_self] at hnil
          simp at hnil
        · next r2 heq =>
          obtain ⟨g1, g2, g3, g4⟩ := removeMetaInfo_ok_inv heq p1 (alookup_aput_self _ _ _)
          obtain ⟨f1, f2, f3, f4⟩ := resetIdle_false_fields r2 sub.partition.key
          have hInv2 : UsedIndexInv (r2.resetIdlePartition sub.partition.key false) := by
            refine inv_transfer r _ sub.partition.key hInv ?_ ?_ ?_
            · intro k' hne
              rw [f1, g1, alookup_aerase_ne _ hne]
              exact alookup_aput_ne _ _ hne
            · intro k' hk
              rw [f2] at hk
              obtain ⟨hne, hold⟩ := isSome_alookup_aerase _ _ _ hk
              rw [g2] at hold
              exact ⟨hne, hold⟩
            · intro k' hk
              rw [f3] at hk
              rcases mem_serase.mp hk with ⟨hm, hne⟩
              rw [g3] at hm
              exact ⟨hne, hm⟩
          exact ih _ rb _ hInv2

/-- The expiry scan leaves the lease and idle sets untouched and preserves
key-presence in `partitions`, whether it completes or panics. -/
theorem expireScan_state_fields (curr waitMs : Int) (entries : List (String × Int)) :
    ∀ r : RmtDataCache,
      ((r.expireScan entries curr waitMs).state.fst.usedPartitions = r.usedPartitions) ∧
      ((r.expireScan entries curr waitMs).state.fst.indexPartitions = r.indexPartitions) ∧
      (∀ k, (alookup k (r.expireScan entries curr waitMs).state.fst.partitions).isSome
        = (alookup k r.partitions).isSome) := by
  induction entries with
  | nil => intro r; exact ⟨rfl, rfl, fun k => rfl⟩
  | cons e rest ih =>
    intro r
    obtain ⟨k0, t0⟩ := e
    simp only [RmtDataCache.expireScan]
    by_cases hcond : curr - t0 > waitMs
    · simp only [if_pos hcond]
      rcases hl : alookup k0 r.partitions with _ | v
      · simp only [hl]
        obtain ⟨ihu, ihi, ihp⟩ := ih r
        split
        · next r2 ex heq =>
          rw [heq] at ihu ihi ihp
          exact ⟨ihu, ihi, ihp⟩
        · next res heq =>
          rw [heq] at ihu ihi ihp
          exact ⟨ihu, ihi, ihp⟩
      · rcases v with _ | p
        · simp only [hl]
          exact ⟨rfl, rfl, fun k => rfl⟩
        · simp only [hl]
          obtain ⟨ihu, ihi, ihp⟩ :=
            ih { r with partitions := aput k0 (some { p with lastConsumed := false }) r.partitions }
          have hpp : ∀ k, (alookup k
              (aput k0 (some { p with lastConsumed := false }) r.partitions)).isSome
              = (alookup k r.partitions).isSome := by
            intro k
            by_cases hk : k = k0
            · subst hk
              rw [alookup_aput_self, hl]
              rfl
            · rw [alookup_aput_ne _ _ hk]
          split
          · next r2 ex heq =>
            rw [heq] at ihu ihi ihp
            exact ⟨ihu, ihi, fun k => (ihp k).trans (hpp k)⟩
          · next res heq =>
            rw [heq] at ihu ihi ihp
            exact ⟨ihu, ihi, fun k => (ihp k).trans (hpp k)⟩
    · simp only [if_neg hcond]
      exact ih r

/-- Folding the idle reset over any key list preserves the invariant. -/
theorem inv_foldReset (l : List String) :
    ∀ s : RmtDataCache, UsedIndexInv s →
      UsedIndexInv (l.foldl (fun s k => s.resetIdlePartition k true) s) := by
  induction l with
  | nil => intro s h; exact h
  | cons a rest ih => intro s h; exact ih _ (inv_resetIdlePartition s a true h)

/-- `HandleExpiredPartitions` preserves the invariant, panic states
included. -/
theorem inv_handleExpiredPartitions (r : RmtDataCache) (curr waitMs : Int)
    (hInv : UsedIndexInv r) : UsedIndexInv (r.HandleExpiredPartitions curr waitMs).state := by
  unfold RmtDataCache.HandleExpiredPartitions
  by_cases hne : r.usedPartitions = []
  · rw [if_pos hne]
    exact hInv
  · rw [if_neg hne]
    obtain ⟨su, si, sp⟩ := expireScan_state_fields curr waitMs r.usedPartitions r
    rcases hscan : r.expireScan r.usedPartitions curr waitMs with ⟨r1, ex⟩ | ⟨r1, ex⟩
    · rw [hscan] at su si sp
      simp only [hscan]
      exact inv_foldReset ex r1 (inv_isSome_congr r r1 sp su si hInv)
    · rw [hscan] at su si sp
      simp only [hscan]
      exact inv_isSome_congr r r1 sp su si hInv

/-- Every single cache operation preserves the lease/idle exclusion
invariant. -/
theorem inv_step {r r' : RmtDataCache} (h : Step r r') (hInv : UsedIndexInv r) :
    UsedIndexInv r' := by
  cases h with
  | offerEvent e => exact inv_fields_eq r _ rfl rfl rfl hInv
  | takeEvent =>
    rcases hq : r.rebalanceResults with _ | ⟨e, rest⟩ <;>
      · refine inv_fields_eq r _ ?_ ?_ ?_ hInv <;> simp [RmtDataCache.TakeEvent, hq]
  | pollEventResult =>
    rcases hq : r.rebalanceResults with _ | ⟨e, rest⟩ <;>
      · refine inv_fields_eq r _ ?_ ?_ ?_ hInv <;> simp [RmtDataCache.PollEventResult, hq]
  | clearEvent => exact inv_fields_eq r _ rfl rfl rfl hInv
  | setConsumerInfo cid g => exact inv_fields_eq r _ rfl rfl rfl hInv
  | isFirstRegister k => exact inv_fields_eq r _ rfl rfl rfl hInv
  | addNewPartition p => exact inv_addNewPartition r p hInv
  | removeAndGetPartition subs rb out =>
    unfold RmtDataCache.RemoveAndGetPartition
    by_cases he : subs = []
    · rw [if_pos he]
      exact hInv
    · rw [if_neg he]
      exact inv_removeAndGetLoop subs r rb out hInv
  | removePartition ks => exact inv_removePartitionLoop ks r hInv
  | handleExpiredPartitions curr waitMs => exact inv_handleExpiredPartitions r curr waitMs hInv

/-! ## Claim theorem: lease/idle exclusion invariant -/

/-- C9: in every state reachable from the empty cache by cache operations,
no partition key is simultaneously leased (`usedPartitions`) and idle
(`indexPartitions`), and a key in either set is present in `partitions`. -/
theorem usedIndex_inv_reachable (r : RmtDataCache) (h : Reachable r) : UsedIndexInv r := by
  unfold Reachable at h
  induction h with
  | refl =>
    refine ⟨?_, ?_, ?_⟩ <;> intro k hk <;> simp [NewRmtDataCache, alookup] at hk
  | tail _ hstep ih => exact inv_step hstep ih

/-- Witness for C9 at the fresh cache (reachable in zero steps). -/
theorem usedIndex_inv_reachable_witness : UsedIndexInv NewRmtDataCache :=
  usedIndex_inv_reachable NewRmtDataCache Relation.ReflTransGen.refl

end TubeMQ
